import Mathlib

/-!
Shallow embedding of the OCDG relation-mining engine from
`src/objects/ocdg.rs` (process-rust).  The event log (`Ocel`) is the
external input described in the spec: an ordered enumeration of events,
each with its set of participating objects, plus the declared objects
with their type labels.  Maps (`IntMap`, `IntSet`) are modelled as
association lists / `Finset`s; machine `usize` identifiers are `Nat`.
Fallible lookups that panic in Rust on log inconsistencies are modelled
with `Except`, following the spec's single `IntegrityError` class.
-/

abbrev EventId := Nat
abbrev ObjectId := Nat

structure OcelEvent where
  omap : List ObjectId
deriving DecidableEq, Repr

structure OcelObject where
  obj_type : String
deriving DecidableEq, Repr

structure Ocel where
  events : List (EventId × OcelEvent)
  objects : List (ObjectId × OcelObject)
deriving DecidableEq, Repr

/-- The twelve relation kinds of `enum Relations` in `ocdg.rs`. -/
inductive Relations where
  | INTERACTS
  | COLIFE
  | COBIRTH
  | CODEATH
  | DESCENDANTS
  | INHERITANCE
  | CONSUMES
  | SPLIT
  | MERGE
  | MINION
  | PEELER
  | ENGAGES
deriving DecidableEq, Repr, Fintype

/-- `Relations::relation_type`: 1 = Primitive, 2 = Instance, 3 = Whole. -/
def Relations.relation_type : Relations → Nat
  | .INTERACTS => 1
  | .DESCENDANTS => 1
  | .SPLIT => 3
  | _ => 2

/-- `Relations::relation_index`: the numeric key used in the evidence index. -/
def Relations.relation_index : Relations → Nat
  | .INTERACTS => 0
  | .COLIFE => 1
  | .COBIRTH => 2
  | .CODEATH => 3
  | .DESCENDANTS => 4
  | .INHERITANCE => 5
  | .CONSUMES => 6
  | .SPLIT => 7
  | .MERGE => 8
  | .MINION => 9
  | .PEELER => 10
  | .ENGAGES => 11

/-- `enum EventAdd`: a single event id or a set of event ids. -/
inductive EventAdd where
  | SINGLE : EventId → EventAdd
  | MULTI : Finset EventId → EventAdd
deriving DecidableEq

/-- `struct NodeInfo`: the per-object type label and lifeline. -/
structure NodeInfo where
  node_type : String
  object_events : List EventId
deriving DecidableEq

/-- One element of the `Vec<(usize, usize, EventAdd, Relations)>` proposal
lists produced by the evaluators. -/
structure Proposal where
  src : ObjectId
  tgt : ObjectId
  ev : EventAdd
  rel : Relations
deriving DecidableEq

/-- `struct Ocdg`.  `nodes` is the node list of `net` (insertion order,
mirrored by `inodes`); `edges` is the directed-edge list (`iedges` keyed by
ordered pair, at most one per pair); `irels` is the layered evidence index,
total with default `∅`; `irelsKeys` records which (src, tgt, kind) entries
exist in the Rust nested maps. -/
@[ext]
structure Ocdg where
  nodes : List ObjectId
  edges : List (ObjectId × ObjectId)
  node_attributes : ObjectId → Option NodeInfo
  irels : ObjectId → ObjectId → Nat → Finset EventId
  irelsKeys : Finset (ObjectId × ObjectId × Nat)

def Ocdg.empty : Ocdg :=
  ⟨[], [], fun _ => none, fun _ _ _ => ∅, ∅⟩

def lookupObject (log : Ocel) (oid : ObjectId) : Option OcelObject :=
  (log.objects.find? (fun p => p.1 == oid)).map (·.2)

/-- Random access `log.events.get(&eid).unwrap().omap`; the `unwrap` cannot
fail for event ids drawn from lifelines, so the default is unreachable. -/
def omapOf (log : Ocel) (eid : EventId) : List ObjectId :=
  ((log.events.find? (fun p => p.1 == eid)).map (·.2.omap)).getD []

/-- The evidence set denoted by an `EventAdd` value. -/
def evSet : EventAdd → Finset EventId
  | .SINGLE e => {e}
  | .MULTI s => s

/-- `Relations::execute_primitive`.  The `None` arms model the Rust
`unwrap` panics, which are unreachable because every object of the current
event is registered before the pair loop runs. -/
def Relations.execute_primitive (rel : Relations) (ocdg : Ocdg)
    (oid1 oid2 : ObjectId) (eid : EventId) : List Proposal :=
  match rel with
  | .INTERACTS => [⟨oid1, oid2, .SINGLE eid, .INTERACTS⟩]
  | .DESCENDANTS =>
    match ocdg.node_attributes oid1 with
    | none => []
    | some srcInfo =>
      match ocdg.node_attributes oid2 with
      | some tar =>
        if 1 < srcInfo.object_events.length ∧ tar.object_events.length = 1 then
          [⟨oid1, oid2, .SINGLE eid, .DESCENDANTS⟩]
        else []
      | none =>
        if 1 < srcInfo.object_events.length then
          [⟨oid1, oid2, .SINGLE eid, .DESCENDANTS⟩]
        else []
  | _ => []

/-- The loop body of the PEELER walk in `Relations::execute`: walk the
shorter lifeline in order, failing on the first event whose full object
set has more than 2 members and contains both objects, otherwise
accumulating the event. -/
def peelerWalk (log : Ocel) (oid1 oid2 : ObjectId) :
    List EventId → Finset EventId → Option (Finset EventId)
  | [], acc => some acc
  | e :: rest, acc =>
    let omap := omapOf log e
    if 2 < omap.length ∧ oid1 ∈ omap ∧ oid2 ∈ omap then none
    else peelerWalk log oid1 oid2 rest (insert e acc)

/-- `array_tool`'s `Vec::intersect`: the deduplicated elements of `xs`
that also occur in `ys`. -/
def listIntersect (xs ys : List EventId) : List EventId :=
  xs.dedup.filter (fun x => decide (x ∈ ys))

/-- `Relations::execute`, the Instance-tier evaluators.  The outer `none`
arms model the Rust `unwrap` panics on missing node attributes, which are
unreachable for the graph nodes the orchestrator passes in; likewise the
inner `head?`/`getLast?` misses model `first()/last().unwrap()` on an
empty lifeline. -/
def Relations.execute (rel : Relations) (log : Ocel) (ocdg : Ocdg)
    (oid1 oid2 : ObjectId) : List Proposal :=
  match ocdg.node_attributes oid1, ocdg.node_attributes oid2 with
  | some srcInfo, some tarInfo =>
    let src_oe := srcInfo.object_events
    let tar_oe := tarInfo.object_events
    let src_type := srcInfo.node_type
    let tar_type := tarInfo.node_type
    match rel with
    | .COLIFE =>
      if src_oe = tar_oe then
        [⟨oid1, oid2, .MULTI src_oe.toFinset, .COLIFE⟩]
      else []
    | .COBIRTH =>
      if oid1 < oid2 then
        match src_oe.head?, tar_oe.head? with
        | some se, some te =>
          if se = te then
            [⟨oid1, oid2, .SINGLE se, .COBIRTH⟩, ⟨oid2, oid1, .SINGLE se, .COBIRTH⟩]
          else []
        | _, _ => []
      else []
    | .CODEATH =>
      if oid1 < oid2 then
        match src_oe.getLast?, tar_oe.getLast? with
        | some se, some te =>
          if se = te then
            [⟨oid1, oid2, .SINGLE se, .CODEATH⟩, ⟨oid2, oid1, .SINGLE se, .CODEATH⟩]
          else []
        | _, _ => []
      else []
    | .INHERITANCE =>
      match src_oe.getLast?, tar_oe.head? with
      | some se, some tf =>
        if src_type = tar_type ∧ se = tf then
          [⟨oid1, oid2, .SINGLE se, .INHERITANCE⟩]
        else []
      | _, _ => []
    | .CONSUMES =>
      match src_oe.getLast?, tar_oe.head? with
      | some se, some tf =>
        if ¬ src_type = tar_type ∧ se = tf then
          [⟨oid1, oid2, .SINGLE se, .CONSUMES⟩]
        else []
      | _, _ => []
    | .MERGE =>
      match src_oe.getLast?, tar_oe.getLast? with
      | some se, some te =>
        if src_type = tar_type ∧ ¬ se = te then
          [⟨oid1, oid2, .SINGLE se, .MERGE⟩]
        else []
      | _, _ => []
    | .MINION =>
      if tar_oe.length < src_oe.length then
        let common := listIntersect src_oe tar_oe
        if common.length = tar_oe.length then
          [⟨oid1, oid2, .MULTI common.toFinset, .MINION⟩]
        else []
      else []
    | .PEELER =>
      if oid1 < oid2 then
        let shorter := if tar_oe.length < src_oe.length then tar_oe else src_oe
        match peelerWalk log oid1 oid2 shorter ∅ with
        | none => []
        | some shared =>
          [⟨oid1, oid2, .MULTI shared, .PEELER⟩, ⟨oid2, oid1, .MULTI shared, .PEELER⟩]
      else []
    | .ENGAGES =>
      if oid1 < oid2 then
        match src_oe.head?, src_oe.getLast?, tar_oe.head?, tar_oe.getLast? with
        | some sf, some sl, some tf, some tl =>
          if sf ∉ tar_oe.toFinset ∧ sl ∉ tar_oe.toFinset ∧
             tf ∉ src_oe.toFinset ∧ tl ∉ src_oe.toFinset then
            let shared := src_oe.toFinset ∩ tar_oe.toFinset
            [⟨oid1, oid2, .MULTI shared, .ENGAGES⟩, ⟨oid2, oid1, .MULTI shared, .ENGAGES⟩]
          else []
        | _, _, _, _ => []
      else []
    | _ => []
  | _, _ => []

/-- Outgoing neighbourhood of a node, from the directed edge list. -/
def outNeighbors (g : Ocdg) (oid : ObjectId) : List ObjectId :=
  (g.edges.filter (fun e => e.1 == oid)).map (·.2)

/-- `Relations::execute_whole`, the Whole-tier evaluator (SPLIT).  The
`IntSet` of conforming neighbours is modelled by deduplicating the
filtered neighbour list. -/
def Relations.execute_whole (rel : Relations) (_log : Ocel) (g : Ocdg)
    (oid1 : ObjectId) (neighbors : List ObjectId) : List Proposal :=
  match g.node_attributes oid1 with
  | none => []
  | some srcInfo =>
    match rel with
    | .SPLIT =>
      match srcInfo.object_events.getLast? with
      | none => []
      | some src_e =>
        let conforming := (neighbors.filter (fun oid2 =>
          match g.node_attributes oid2 with
          | some n =>
            decide (n.node_type = srcInfo.node_type) &&
              decide (n.object_events.head? = some src_e)
          | none => false)).dedup
        if 1 < conforming.length then
          conforming.map (fun oid2 => ⟨oid1, oid2, .SINGLE src_e, .SPLIT⟩)
        else []
    | _ => []

/-- `Ocdg::apply_new_edges`: idempotent edge creation plus union of the
evidence into the layered index (vacant insert and occupied extend both
amount to a set union over the `∅` default). -/
def Ocdg.apply_new_edges (g : Ocdg) (p : Proposal) : Ocdg :=
  let r := p.rel.relation_index
  { nodes := g.nodes
    edges := if (p.src, p.tgt) ∈ g.edges then g.edges else g.edges ++ [(p.src, p.tgt)]
    node_attributes := g.node_attributes
    irels := fun a b k =>
      if a = p.src ∧ b = p.tgt ∧ k = r then g.irels a b k ∪ evSet p.ev
      else g.irels a b k
    irelsKeys := insert (p.src, p.tgt, r) g.irelsKeys }

/-- The tier-2 gate `ocdg.irels[oid1][oid2].len() > 0` of
`whole_instance_edges`: the number of relation-kind entries stored for the
ordered pair. -/
def relCount (g : Ocdg) (a b : ObjectId) : Nat :=
  (g.irelsKeys.filter (fun k => k.1 = a ∧ k.2.1 = b)).card

/-- `whole_instance_edges`: one phase-2 task, for node `oid1`. -/
def whole_instance_edges (log : Ocel) (g : Ocdg)
    (rel_whole rel_inst : List Relations) (oid1 : ObjectId) : List Proposal :=
  let neigh := outNeighbors g oid1
  (rel_whole.flatMap (fun r => r.execute_whole log g oid1 neigh)) ++
    neigh.flatMap (fun oid2 =>
      if 0 < relCount g oid1 oid2 then
        rel_inst.flatMap (fun r => r.execute log g oid1 oid2)
      else [])

/-- `Ocdg::add_eid_to_oe` (`entry(oid).or_default()` then push). -/
def Ocdg.add_eid_to_oe (g : Ocdg) (oid : ObjectId) (eid : EventId) : Ocdg :=
  { g with node_attributes := fun o =>
      if o = oid then
        let info := (g.node_attributes oid).getD ⟨"", []⟩
        some { info with object_events := info.object_events ++ [eid] }
      else g.node_attributes o }

/-- Node creation on first sighting inside `generate_ocdg`'s ingestion
loop: add to `net`/`inodes`, set the declared type, reset the lifeline. -/
def Ocdg.registerNode (g : Ocdg) (oid : ObjectId) (t : String) : Ocdg :=
  { g with
    nodes := g.nodes ++ [oid]
    node_attributes := fun o => if o = oid then some ⟨t, []⟩ else g.node_attributes o }

/-- One iteration of `for oid in &data.omap` in `generate_ocdg`: register
the object on first sighting (failing with the offending id when the log
does not declare it, modelling the fatal `log.objects[oid]` lookup), then
append the event to its lifeline. -/
def registerOne (log : Ocel) (eid : EventId) (g : Ocdg) (oid : ObjectId) :
    Except ObjectId Ocdg :=
  match g.node_attributes oid with
  | some _ => .ok (g.add_eid_to_oe oid eid)
  | none =>
    match lookupObject log oid with
    | none => .error oid
    | some obj => .ok ((g.registerNode oid obj.obj_type).add_eid_to_oe oid eid)

def registerList (log : Ocel) (eid : EventId) :
    List ObjectId → Ocdg → Except ObjectId Ocdg
  | [], g => .ok g
  | oid :: rest, g =>
    match registerOne log eid g oid with
    | .error o => .error o
    | .ok g2 => registerList log eid rest g2

/-- The primitive pair loop of `generate_ocdg` for one event: for every
ordered pair of distinct objects in the event's object set, run the
hard-wired INTERACTS and DESCENDANTS evaluators. -/
def eventProps (g : Ocdg) (eid : EventId) (omap : List ObjectId) : List Proposal :=
  omap.flatMap (fun oid1 =>
    omap.flatMap (fun oid2 =>
      if oid1 = oid2 then []
      else Relations.INTERACTS.execute_primitive g oid1 oid2 eid ++
        Relations.DESCENDANTS.execute_primitive g oid1 oid2 eid))

/-- The event loop of `generate_ocdg`: per event, register/extend every
participant's lifeline, then collect the primitive proposals (which are
applied only after the loop, as in the source). -/
def ingestList (log : Ocel) :
    List (EventId × OcelEvent) → Ocdg → List Proposal →
      Except ObjectId (Ocdg × List Proposal)
  | [], g, props => .ok (g, props)
  | (eid, ev) :: rest, g, props =>
    match registerList log eid ev.omap g with
    | .error o => .error o
    | .ok g2 => ingestList log rest g2 (props ++ eventProps g2 eid ev.omap)

/-- Phase 1 of `generate_ocdg`: ingestion followed by the first
`apply_new_edges` loop. -/
def phase1 (log : Ocel) : Except ObjectId Ocdg :=
  match ingestList log log.events Ocdg.empty [] with
  | .error o => .error o
  | .ok (g, props) => .ok (props.foldl Ocdg.apply_new_edges g)

def relSelInst (relations : List Relations) : List Relations :=
  relations.filter (fun r => r.relation_type == 2)

def relSelWhole (relations : List Relations) : List Relations :=
  relations.filter (fun r => r.relation_type == 3)

/-- Phases 2 and 3 of `generate_ocdg`: run one task per node of `order`
over the frozen phase-1 state, then merge every proposal sequentially.
`order` is the schedule in which the parallel tasks' results are
collected; the source uses an arbitrary `par_iter` order over `inodes`. -/
def phase23 (log : Ocel) (relations : List Relations) (order : List ObjectId)
    (g : Ocdg) : Ocdg :=
  (order.flatMap (whole_instance_edges log g (relSelWhole relations)
    (relSelInst relations))).foldl Ocdg.apply_new_edges g

/-- `generate_ocdg` with an explicit phase-2 task schedule. -/
def generate_sched (log : Ocel) (relations : List Relations)
    (order : List ObjectId) : Except ObjectId Ocdg :=
  match phase1 log with
  | .error o => .error o
  | .ok g => .ok (phase23 log relations order g)

/-- `generate_ocdg`, with the node list itself as the task schedule. -/
def generate_ocdg (log : Ocel) (relations : List Relations) :
    Except ObjectId Ocdg :=
  match phase1 log with
  | .error o => .error o
  | .ok g => .ok (phase23 log relations g.nodes g)

/-! ### Basic facts about the reconciliation fold -/

theorem apply_nodes (g : Ocdg) (p : Proposal) :
    (g.apply_new_edges p).nodes = g.nodes := rfl

theorem apply_attrs (g : Ocdg) (p : Proposal) :
    (g.apply_new_edges p).node_attributes = g.node_attributes := rfl

theorem apply_mem_edges (g : Ocdg) (p : Proposal) (x : ObjectId × ObjectId) :
    x ∈ (g.apply_new_edges p).edges ↔ x ∈ g.edges ∨ x = (p.src, p.tgt) := by
  unfold Ocdg.apply_new_edges
  by_cases h : (p.src, p.tgt) ∈ g.edges
  · simp only [h, if_pos]
    constructor
    · exact Or.inl
    · rintro (hx | rfl)
      · exact hx
      · exact h
  · simp [h, List.mem_append]

theorem apply_mem_keys (g : Ocdg) (p : Proposal) (k : ObjectId × ObjectId × Nat) :
    k ∈ (g.apply_new_edges p).irelsKeys ↔
      k ∈ g.irelsKeys ∨ k = (p.src, p.tgt, p.rel.relation_index) := by
  unfold Ocdg.apply_new_edges
  simp [Finset.mem_insert, or_comm]

theorem apply_mem_irels (g : Ocdg) (p : Proposal) (a b : ObjectId) (r : Nat)
    (e : EventId) :
    e ∈ (g.apply_new_edges p).irels a b r ↔
      e ∈ g.irels a b r ∨
        ((a, b, r) = (p.src, p.tgt, p.rel.relation_index) ∧ e ∈ evSet p.ev) := by
  unfold Ocdg.apply_new_edges
  by_cases h : a = p.src ∧ b = p.tgt ∧ r = p.rel.relation_index
  · obtain ⟨h1, h2, h3⟩ := h
    subst h1; subst h2; subst h3
    simp [Finset.mem_union]
  · simp only [if_neg h]
    constructor
    · exact Or.inl
    · rintro (hx | ⟨hk, _⟩)
      · exact hx
      · exact absurd ⟨congrArg (·.1) hk, congrArg (·.2.1) hk, congrArg (·.2.2) hk⟩ h

theorem foldl_apply_nodes (l : List Proposal) (g : Ocdg) :
    (l.foldl Ocdg.apply_new_edges g).nodes = g.nodes := by
  induction l generalizing g with
  | nil => rfl
  | cons p l ih => simpa [List.foldl_cons] using ih (g.apply_new_edges p)

theorem foldl_apply_attrs (l : List Proposal) (g : Ocdg) :
    (l.foldl Ocdg.apply_new_edges g).node_attributes = g.node_attributes := by
  induction l generalizing g with
  | nil => rfl
  | cons p l ih => simpa [List.foldl_cons] using ih (g.apply_new_edges p)

theorem foldl_apply_mem_edges (l : List Proposal) (g : Ocdg)
    (x : ObjectId × ObjectId) :
    x ∈ (l.foldl Ocdg.apply_new_edges g).edges ↔
      x ∈ g.edges ∨ ∃ p ∈ l, x = (p.src, p.tgt) := by
  induction l generalizing g with
  | nil => simp
  | cons p l ih =>
    rw [List.foldl_cons, ih, apply_mem_edges]
    constructor
    · rintro ((hx | hx) | ⟨q, hq, hxq⟩)
      · exact Or.inl hx
      · exact Or.inr ⟨p, List.mem_cons_self _ _, hx⟩
      · exact Or.inr ⟨q, List.mem_cons_of_mem _ hq, hxq⟩
    · rintro (hx | ⟨q, hq, hxq⟩)
      · exact Or.inl (Or.inl hx)
      · rcases List.mem_cons.mp hq with rfl | hq
        · exact Or.inl (Or.inr hxq)
        · exact Or.inr ⟨q, hq, hxq⟩

theorem foldl_apply_mem_keys (l : List Proposal) (g : Ocdg)
    (k : ObjectId × ObjectId × Nat) :
    k ∈ (l.foldl Ocdg.apply_new_edges g).irelsKeys ↔
      k ∈ g.irelsKeys ∨ ∃ p ∈ l, k = (p.src, p.tgt, p.rel.relation_index) := by
  induction l generalizing g with
  | nil => simp
  | cons p l ih =>
    rw [List.foldl_cons, ih, apply_mem_keys]
    constructor
    · rintro ((hx | hx) | ⟨q, hq, hxq⟩)
      · exact Or.inl hx
      · exact Or.inr ⟨p, List.mem_cons_self _ _, hx⟩
      · exact Or.inr ⟨q, List.mem_cons_of_mem _ hq, hxq⟩
    · rintro (hx | ⟨q, hq, hxq⟩)
      · exact Or.inl (Or.inl hx)
      · rcases List.mem_cons.mp hq with rfl | hq
        · exact Or.inl (Or.inr hxq)
        · exact Or.inr ⟨q, hq, hxq⟩

theorem foldl_apply_mem_irels (l : List Proposal) (g : Ocdg) (a b : ObjectId)
    (r : Nat) (e : EventId) :
    e ∈ (l.foldl Ocdg.apply_new_edges g).irels a b r ↔
      e ∈ g.irels a b r ∨
        ∃ p ∈ l, (a, b, r) = (p.src, p.tgt, p.rel.relation_index) ∧ e ∈ evSet p.ev := by
  induction l generalizing g with
  | nil => simp
  | cons p l ih =>
    rw [List.foldl_cons, ih, apply_mem_irels]
    constructor
    · rintro ((hx | hx) | ⟨q, hq, hxq⟩)
      · exact Or.inl hx
      · exact Or.inr ⟨p, List.mem_cons_self _ _, hx⟩
      · exact Or.inr ⟨q, List.mem_cons_of_mem _ hq, hxq⟩
    · rintro (hx | ⟨q, hq, hxq⟩)
      · exact Or.inl (Or.inl hx)
      · rcases List.mem_cons.mp hq with rfl | hq
        · exact Or.inl (Or.inr hxq)
        · exact Or.inr ⟨q, hq, hxq⟩

/-! ### Closed forms for the phase-1 state -/

/-- Fold of the first-sighting registration over one object set. -/
def addNew (acc : List ObjectId) (omap : List ObjectId) : List ObjectId :=
  omap.foldl (fun a o => if o ∈ a then a else a ++ [o]) acc

/-- The node list after ingesting `es`: participants in first-sighting order. -/
def nodesOf (es : List (EventId × OcelEvent)) : List ObjectId :=
  es.foldl (fun a p => addNew a p.2.omap) []

/-- The lifeline of `oid` after ingesting `es`, in log order. -/
def oeOf (es : List (EventId × OcelEvent)) (oid : ObjectId) : List EventId :=
  (es.filter (fun p => decide (oid ∈ p.2.omap))).map (·.1)

/-- The declared type label of an object (empty when undeclared). -/
def typeOfD (log : Ocel) (oid : ObjectId) : String :=
  ((lookupObject log oid).map (·.obj_type)).getD ""

/-- The node-attribute map after ingesting `es`. -/
def attrsOf (log : Ocel) (es : List (EventId × OcelEvent)) :
    ObjectId → Option NodeInfo := fun oid =>
  if oid ∈ nodesOf es then some ⟨typeOfD log oid, oeOf es oid⟩ else none

/-- The graph state reached after registering/extending lifelines for `es`
but before any edge has been applied. -/
def refGraph (log : Ocel) (es : List (EventId × OcelEvent)) : Ocdg :=
  { Ocdg.empty with nodes := nodesOf es, node_attributes := attrsOf log es }

/-- Closed form of the primitive proposals collected by the event loop:
for each event, the pair loop runs over the state that already includes
that event in every participant's lifeline. -/
def propsAux (log : Ocel) :
    List (EventId × OcelEvent) → List (EventId × OcelEvent) → List Proposal
  | _, [] => []
  | done, (eid, ev) :: rest =>
    eventProps (refGraph log (done ++ [(eid, ev)])) eid ev.omap ++
      propsAux log (done ++ [(eid, ev)]) rest

theorem addNew_nil (acc : List ObjectId) : addNew acc [] = acc := rfl

theorem mem_addNew (omap : List ObjectId) :
    ∀ (acc : List ObjectId) (o : ObjectId),
      o ∈ addNew acc omap ↔ o ∈ acc ∨ o ∈ omap := by
  induction omap with
  | nil => intro acc o; simp [addNew]
  | cons x xs ih =>
    intro acc o
    have hstep : addNew acc (x :: xs) = addNew (if x ∈ acc then acc else acc ++ [x]) xs := rfl
    rw [hstep, ih]
    by_cases hx : x ∈ acc
    · simp only [if_pos hx, List.mem_cons]
      constructor
      · rintro (h | h)
        · exact Or.inl h
        · exact Or.inr (Or.inr h)
      · rintro (h | rfl | h)
        · exact Or.inl h
        · exact Or.inl hx
        · exact Or.inr h
    · simp only [if_neg hx, List.mem_append, List.mem_singleton, List.mem_cons]
      tauto

theorem addNew_concat (acc os : List ObjectId) (o : ObjectId) :
    addNew acc (os ++ [o]) =
      if o ∈ addNew acc os then addNew acc os else addNew acc os ++ [o] := by
  unfold addNew
  rw [List.foldl_append]
  rfl

theorem nodesOf_nil : nodesOf [] = [] := rfl

theorem nodesOf_concat (done : List (EventId × OcelEvent)) (p : EventId × OcelEvent) :
    nodesOf (done ++ [p]) = addNew (nodesOf done) p.2.omap := by
  unfold nodesOf
  rw [List.foldl_append]
  rfl

theorem mem_nodesOf (es : List (EventId × OcelEvent)) (o : ObjectId) :
    o ∈ nodesOf es ↔ ∃ p ∈ es, o ∈ p.2.omap := by
  have key : ∀ (l : List (EventId × OcelEvent)) (acc : List ObjectId),
      o ∈ l.foldl (fun a p => addNew a p.2.omap) acc ↔
        o ∈ acc ∨ ∃ p ∈ l, o ∈ p.2.omap := by
    intro l
    induction l with
    | nil => intro acc; simp
    | cons q qs ih =>
      intro acc
      rw [List.foldl_cons, ih, mem_addNew]
      constructor
      · rintro ((h | h) | ⟨p, hp, hop⟩)
        · exact Or.inl h
        · exact Or.inr ⟨q, List.mem_cons_self _ _, h⟩
        · exact Or.inr ⟨p, List.mem_cons_of_mem _ hp, hop⟩
      · rintro (h | ⟨p, hp, hop⟩)
        · exact Or.inl (Or.inl h)
        · rcases List.mem_cons.mp hp with rfl | hp
          · exact Or.inl (Or.inr hop)
          · exact Or.inr ⟨p, hp, hop⟩
  simpa using key es []

theorem oeOf_nil (oid : ObjectId) : oeOf [] oid = [] := rfl

theorem oeOf_concat (done : List (EventId × OcelEvent)) (eid : EventId)
    (ev : OcelEvent) (oid : ObjectId) :
    oeOf (done ++ [(eid, ev)]) oid =
      oeOf done oid ++ (if oid ∈ ev.omap then [eid] else []) := by
  unfold oeOf
  rw [List.filter_append, List.map_append]
  by_cases h : oid ∈ ev.omap <;> simp [h]

theorem oeOf_eq_nil_of_not_mem (es : List (EventId × OcelEvent)) (oid : ObjectId)
    (h : oid ∉ nodesOf es) : oeOf es oid = [] := by
  rw [mem_nodesOf] at h
  push_neg at h
  unfold oeOf
  rw [List.map_eq_nil_iff, List.filter_eq_nil_iff]
  intro p hp
  simpa using h p hp

theorem mem_oeOf (es : List (EventId × OcelEvent)) (oid : ObjectId) (e : EventId) :
    e ∈ oeOf es oid ↔ ∃ ev, (e, ev) ∈ es ∧ oid ∈ ev.omap := by
  unfold oeOf
  simp only [List.mem_map, List.mem_filter, decide_eq_true_eq]
  constructor
  · rintro ⟨⟨e1, ev1⟩, ⟨hmem, hoid⟩, rfl⟩
    exact ⟨ev1, hmem, hoid⟩
  · rintro ⟨ev, hmem, hoid⟩
    exact ⟨(e, ev), ⟨hmem, hoid⟩, rfl⟩

/-! ### The ingestion invariant -/

/-- Node-attribute map in the middle of registering one event: the objects
in `os` (a duplicate-free part of the event's object set) have already had
`eid` appended. -/
def midAttrs (log : Ocel) (done : List (EventId × OcelEvent)) (eid : EventId)
    (os : List ObjectId) : ObjectId → Option NodeInfo := fun oid =>
  if oid ∈ addNew (nodesOf done) os then
    some ⟨typeOfD log oid, oeOf done oid ++ (if oid ∈ os then [eid] else [])⟩
  else none

theorem midAttrs_nil (log : Ocel) (done : List (EventId × OcelEvent))
    (eid : EventId) : midAttrs log done eid [] = attrsOf log done := by
  funext oid
  simp [midAttrs, attrsOf, addNew_nil]

theorem midAttrs_full (log : Ocel) (done : List (EventId × OcelEvent))
    (eid : EventId) (ev : OcelEvent) :
    midAttrs log done eid ev.omap = attrsOf log (done ++ [(eid, ev)]) := by
  funext oid
  simp [midAttrs, attrsOf, nodesOf_concat, oeOf_concat, mem_addNew]

theorem midAttrs_concat_self (log : Ocel) (done : List (EventId × OcelEvent))
    (eid : EventId) (os : List ObjectId) (oid : ObjectId) :
    midAttrs log done eid (os ++ [oid]) oid =
      some ⟨typeOfD log oid, oeOf done oid ++ [eid]⟩ := by
  have hmem : oid ∈ addNew (nodesOf done) (os ++ [oid]) := by
    rw [mem_addNew]; simp
  simp [midAttrs, hmem]

theorem midAttrs_concat_other (log : Ocel) (done : List (EventId × OcelEvent))
    (eid : EventId) (os : List ObjectId) (oid o : ObjectId) (ho : o ≠ oid) :
    midAttrs log done eid (os ++ [oid]) o = midAttrs log done eid os o := by
  have h1 : (o ∈ addNew (nodesOf done) (os ++ [oid])) ↔
      (o ∈ addNew (nodesOf done) os) := by
    simp only [mem_addNew, List.mem_append, List.mem_singleton]
    tauto
  have h2 : (o ∈ os ++ [oid]) ↔ (o ∈ os) := by
    simp only [List.mem_append, List.mem_singleton]
    tauto
  simp only [midAttrs, h1, h2]

theorem registerOne_step (log : Ocel) (done : List (EventId × OcelEvent))
    (eid : EventId) (g : Ocdg) (os : List ObjectId) (oid : ObjectId)
    (hnotin : oid ∉ os) (hdecl : (lookupObject log oid).isSome) :
    registerOne log eid
      { g with nodes := addNew (nodesOf done) os,
               node_attributes := midAttrs log done eid os } oid =
      .ok { g with nodes := addNew (nodesOf done) (os ++ [oid]),
                   node_attributes := midAttrs log done eid (os ++ [oid]) } := by
  by_cases hmem : oid ∈ addNew (nodesOf done) os
  · have hattr : midAttrs log done eid os oid =
        some ⟨typeOfD log oid, oeOf done oid ++ (if oid ∈ os then [eid] else [])⟩ := by
      simp [midAttrs, hmem]
    have hnodes : addNew (nodesOf done) (os ++ [oid]) = addNew (nodesOf done) os := by
      rw [addNew_concat, if_pos hmem]
    have hG : Ocdg.add_eid_to_oe
        { g with nodes := addNew (nodesOf done) os,
                 node_attributes := midAttrs log done eid os } oid eid =
        { g with nodes := addNew (nodesOf done) (os ++ [oid]),
                 node_attributes := midAttrs log done eid (os ++ [oid]) } := by
      unfold Ocdg.add_eid_to_oe
      refine Ocdg.ext (by simp [hnodes]) rfl ?_ rfl rfl
      funext o
      dsimp only
      by_cases ho : o = oid
      · rw [ho, if_pos rfl, hattr, midAttrs_concat_self log done eid os oid]
        simp [hnotin]
      · rw [if_neg ho, midAttrs_concat_other log done eid os oid o ho]
    unfold registerOne
    simp only [hattr, hG]
  · have hattr : midAttrs log done eid os oid = none := by
      simp [midAttrs, hmem]
    obtain ⟨obj, hobj⟩ := Option.isSome_iff_exists.mp hdecl
    have hnodes : addNew (nodesOf done) (os ++ [oid]) =
        addNew (nodesOf done) os ++ [oid] := by
      rw [addNew_concat, if_neg hmem]
    have hnd : oid ∉ nodesOf done := fun hc => hmem ((mem_addNew _ _ _).mpr (Or.inl hc))
    have hG : Ocdg.add_eid_to_oe
        (Ocdg.registerNode
          { g with nodes := addNew (nodesOf done) os,
                   node_attributes := midAttrs log done eid os } oid obj.obj_type)
          oid eid =
        { g with nodes := addNew (nodesOf done) (os ++ [oid]),
                 node_attributes := midAttrs log done eid (os ++ [oid]) } := by
      unfold Ocdg.add_eid_to_oe Ocdg.registerNode
      refine Ocdg.ext (by simp [hnodes]) rfl ?_ rfl rfl
      funext o
      dsimp only
      by_cases ho : o = oid
      · rw [ho, midAttrs_concat_self log done eid os oid]
        have hoe : oeOf done oid = [] := oeOf_eq_nil_of_not_mem done oid hnd
        have htype : typeOfD log oid = obj.obj_type := by
          simp [typeOfD, hobj]
        simp [hoe, htype]
      · rw [midAttrs_concat_other log done eid os oid o ho]
        simp only [if_neg ho, midAttrs]
    unfold registerOne
    simp only [hattr, hobj, hG]

theorem registerList_run (log : Ocel) (done : List (EventId × OcelEvent))
    (eid : EventId) (g : Ocdg) :
    ∀ (rest os : List ObjectId), (os ++ rest).Nodup →
      (∀ oid ∈ rest, (lookupObject log oid).isSome) →
      registerList log eid rest
        { g with nodes := addNew (nodesOf done) os,
                 node_attributes := midAttrs log done eid os } =
        .ok { g with nodes := addNew (nodesOf done) (os ++ rest),
                     node_attributes := midAttrs log done eid (os ++ rest) } := by
  intro rest
  induction rest with
  | nil => intro os _ _; simp [registerList]
  | cons oid rest ih =>
    intro os hnd hdecl
    have hnotin : oid ∉ os := by
      intro hc
      have hd := List.disjoint_of_nodup_append hnd
      exact hd hc (List.mem_cons_self _ _)
    have hstep := registerOne_step log done eid g os oid hnotin
      (hdecl oid (List.mem_cons_self _ _))
    have hnd2 : ((os ++ [oid]) ++ rest).Nodup := by
      simpa [List.append_assoc] using hnd
    have hdecl2 : ∀ o ∈ rest, (lookupObject log o).isSome := fun o ho =>
      hdecl o (List.mem_cons_of_mem _ ho)
    have hrec := ih (os ++ [oid]) hnd2 hdecl2
    simp only [registerList, hstep, hrec]
    simp [List.append_assoc]

theorem execute_primitive_congr (r : Relations) (g1 g2 : Ocdg)
    (h : g1.node_attributes = g2.node_attributes) (a b : ObjectId) (e : EventId) :
    r.execute_primitive g1 a b e = r.execute_primitive g2 a b e := by
  cases r <;> simp [Relations.execute_primitive, h]

theorem eventProps_congr (g1 g2 : Ocdg)
    (h : g1.node_attributes = g2.node_attributes) (eid : EventId)
    (omap : List ObjectId) : eventProps g1 eid omap = eventProps g2 eid omap := by
  unfold eventProps
  congr 1
  funext oid1
  congr 1
  funext oid2
  by_cases hq : oid1 = oid2
  · simp [hq]
  · simp only [if_neg hq, execute_primitive_congr _ _ _ h]

theorem ingestList_run (log : Ocel) (g : Ocdg) :
    ∀ (rest done : List (EventId × OcelEvent)) (props : List Proposal),
      (∀ p ∈ rest, p.2.omap.Nodup) →
      (∀ p ∈ rest, ∀ oid ∈ p.2.omap, (lookupObject log oid).isSome) →
      ingestList log rest
        { g with nodes := nodesOf done, node_attributes := attrsOf log done }
        props =
        .ok ({ g with nodes := nodesOf (done ++ rest),
                      node_attributes := attrsOf log (done ++ rest) },
             props ++ propsAux log done rest) := by
  intro rest
  induction rest with
  | nil => intro done props _ _; simp [ingestList, propsAux]
  | cons q rest ih =>
    rcases q with ⟨eid, ev⟩
    intro done props hnd hdecl
    have hstart : ({ g with nodes := nodesOf done, node_attributes := attrsOf log done } : Ocdg) =
        { g with nodes := addNew (nodesOf done) [],
                 node_attributes := midAttrs log done eid [] } := by
      rw [midAttrs_nil, addNew_nil]
    have hreg := registerList_run log done eid g ev.omap []
      (by simpa using hnd (eid, ev) (List.mem_cons_self _ _))
      (fun oid ho => hdecl (eid, ev) (List.mem_cons_self _ _) oid ho)
    have hend : ({ g with nodes := addNew (nodesOf done) ([] ++ ev.omap), node_attributes := midAttrs log done eid ([] ++ ev.omap) } : Ocdg) =
        { g with nodes := nodesOf (done ++ [(eid, ev)]),
                 node_attributes := attrsOf log (done ++ [(eid, ev)]) } := by
      rw [List.nil_append, midAttrs_full, nodesOf_concat]
    rw [hstart]
    unfold ingestList
    simp only [hreg]
    rw [hend]
    have hprops : eventProps { g with nodes := nodesOf (done ++ [(eid, ev)]), node_attributes := attrsOf log (done ++ [(eid, ev)]) } eid ev.omap =
        eventProps (refGraph log (done ++ [(eid, ev)])) eid ev.omap :=
      eventProps_congr _ _ rfl eid ev.omap
    have hih := ih (done ++ [(eid, ev)]) (props ++ eventProps
        { g with nodes := nodesOf (done ++ [(eid, ev)]), node_attributes := attrsOf log (done ++ [(eid, ev)]) } eid ev.omap)
      (fun p hp => hnd p (List.mem_cons_of_mem _ hp))
      (fun p hp => hdecl p (List.mem_cons_of_mem _ hp))
    rw [hih]
    have hdone : (done ++ [(eid, ev)]) ++ rest = done ++ (eid, ev) :: rest := by
      simp
    rw [hprops, hdone]
    conv_rhs => rw [propsAux]
    rw [List.append_assoc]

/-- The phase-1 result graph, in closed form. -/
def phase1Graph (log : Ocel) : Ocdg :=
  (propsAux log [] log.events).foldl Ocdg.apply_new_edges (refGraph log log.events)

theorem phase1_run (log : Ocel)
    (hnd : ∀ p ∈ log.events, p.2.omap.Nodup)
    (hdecl : ∀ p ∈ log.events, ∀ oid ∈ p.2.omap, (lookupObject log oid).isSome) :
    phase1 log = .ok (phase1Graph log) := by
  have h0 : (Ocdg.empty : Ocdg) =
      { Ocdg.empty with nodes := nodesOf [], node_attributes := attrsOf log [] } := by
    refine Ocdg.ext rfl rfl ?_ rfl rfl
    funext oid
    simp [attrsOf, nodesOf_nil, Ocdg.empty]
  have hrun := ingestList_run log Ocdg.empty log.events [] [] hnd hdecl
  unfold phase1
  rw [h0, hrun]
  simp [phase1Graph, refGraph]

/-! ### Characterizing the primitive proposals -/

/-- The DESCENDANTS firing condition read off the current graph state. -/
def descFires (g : Ocdg) (a b : ObjectId) : Prop :=
  match g.node_attributes a with
  | none => False
  | some s =>
    match g.node_attributes b with
    | some t => 1 < s.object_events.length ∧ t.object_events.length = 1
    | none => 1 < s.object_events.length

theorem mem_execute_primitive_INTERACTS (g : Ocdg) (a b : ObjectId)
    (e : EventId) (p : Proposal) :
    p ∈ Relations.INTERACTS.execute_primitive g a b e ↔
      p = ⟨a, b, .SINGLE e, .INTERACTS⟩ := by
  simp [Relations.execute_primitive]

theorem mem_execute_primitive_DESCENDANTS (g : Ocdg) (a b : ObjectId)
    (e : EventId) (p : Proposal) :
    p ∈ Relations.DESCENDANTS.execute_primitive g a b e ↔
      p = ⟨a, b, .SINGLE e, .DESCENDANTS⟩ ∧ descFires g a b := by
  unfold Relations.execute_primitive descFires
  rcases g.node_attributes a with _ | s
  · simp
  · rcases g.node_attributes b with _ | t
    · by_cases h : 1 < s.object_events.length <;> simp [h]
    · by_cases h : 1 < s.object_events.length ∧ t.object_events.length = 1 <;> simp [h]

theorem mem_eventProps (g : Ocdg) (eid : EventId) (omap : List ObjectId)
    (p : Proposal) :
    p ∈ eventProps g eid omap ↔
      ∃ a ∈ omap, ∃ b ∈ omap, a ≠ b ∧
        (p ∈ Relations.INTERACTS.execute_primitive g a b eid ∨
         p ∈ Relations.DESCENDANTS.execute_primitive g a b eid) := by
  unfold eventProps
  simp only [List.mem_flatMap]
  constructor
  · rintro ⟨a, ha, b, hb, hp⟩
    by_cases hab : a = b
    · rw [if_pos hab] at hp; cases hp
    · rw [if_neg hab] at hp
      exact ⟨a, ha, b, hb, hab, List.mem_append.mp hp⟩
  · rintro ⟨a, ha, b, hb, hab, hor⟩
    exact ⟨a, ha, b, hb, by rw [if_neg hab]; exact List.mem_append.mpr hor⟩

theorem mem_propsAux (log : Ocel) :
    ∀ (rest done : List (EventId × OcelEvent)) (p : Proposal),
      p ∈ propsAux log done rest ↔
        ∃ pre eid ev post, rest = pre ++ (eid, ev) :: post ∧
          p ∈ eventProps (refGraph log ((done ++ pre) ++ [(eid, ev)])) eid ev.omap := by
  intro rest
  induction rest with
  | nil =>
    intro done p
    constructor
    · intro h; cases h
    · rintro ⟨pre, eid, ev, post, habs, -⟩
      exact absurd habs (by simp)
  | cons q rest ih =>
    rcases q with ⟨eid0, ev0⟩
    intro done p
    rw [propsAux]
    rw [List.mem_append, ih (done ++ [(eid0, ev0)])]
    constructor
    · rintro (hp | ⟨pre, eid, ev, post, hsplit, hp⟩)
      · exact ⟨[], eid0, ev0, rest, rfl, by simpa using hp⟩
      · refine ⟨(eid0, ev0) :: pre, eid, ev, post, by rw [hsplit]; rfl, ?_⟩
        have harr : (done ++ (eid0, ev0) :: pre) = ((done ++ [(eid0, ev0)]) ++ pre) := by
          simp
        rw [harr]
        exact hp
    · rintro ⟨pre, eid, ev, post, hsplit, hp⟩
      rcases pre with _ | ⟨q1, pre⟩
      · simp only [List.nil_append] at hsplit
        obtain ⟨h1, h2⟩ := List.cons_eq_cons.mp hsplit
        obtain ⟨he, hv⟩ := Prod.mk.injEq .. ▸ h1
        subst he; subst hv; subst h2
        exact Or.inl (by simpa using hp)
      · rw [List.cons_append] at hsplit
        obtain ⟨h1, h2⟩ := List.cons_eq_cons.mp hsplit
        subst h1
        refine Or.inr ⟨pre, eid, ev, post, h2, ?_⟩
        have harr : ((done ++ [(eid0, ev0)]) ++ pre) = (done ++ (eid0, ev0) :: pre) := by
          simp
        rw [harr]
        exact hp

/-! ### Well-formed logs and the phase-1 graph -/

/-- Well-formedness of the abstract log: event ids are unique (they are
the keys of a map in the source), each event's object set is
duplicate-free (it is a set in the source), and every referenced object
is declared. -/
def WellFormedLog (log : Ocel) : Prop :=
  (log.events.map Prod.fst).Nodup ∧
  (∀ p ∈ log.events, p.2.omap.Nodup) ∧
  (∀ p ∈ log.events, ∀ oid ∈ p.2.omap, (lookupObject log oid).isSome)

instance (log : Ocel) : Decidable (WellFormedLog log) := by
  unfold WellFormedLog
  infer_instance

theorem phase1_run_wf (log : Ocel) (hwf : WellFormedLog log) :
    phase1 log = .ok (phase1Graph log) :=
  phase1_run log hwf.2.1 hwf.2.2

theorem phase1Graph_nodes (log : Ocel) :
    (phase1Graph log).nodes = nodesOf log.events := by
  unfold phase1Graph
  rw [foldl_apply_nodes]
  rfl

theorem phase1Graph_attrs (log : Ocel) :
    (phase1Graph log).node_attributes = attrsOf log log.events := by
  unfold phase1Graph
  rw [foldl_apply_attrs]
  rfl

theorem phase1Graph_mem_edges (log : Ocel) (x : ObjectId × ObjectId) :
    x ∈ (phase1Graph log).edges ↔
      ∃ p ∈ propsAux log [] log.events, x = (p.src, p.tgt) := by
  unfold phase1Graph
  rw [foldl_apply_mem_edges]
  simp [refGraph, Ocdg.empty]

theorem phase1Graph_mem_keys (log : Ocel) (k : ObjectId × ObjectId × Nat) :
    k ∈ (phase1Graph log).irelsKeys ↔
      ∃ p ∈ propsAux log [] log.events, k = (p.src, p.tgt, p.rel.relation_index) := by
  unfold phase1Graph
  rw [foldl_apply_mem_keys]
  simp [refGraph, Ocdg.empty]

theorem phase1Graph_mem_irels (log : Ocel) (a b : ObjectId) (r : Nat)
    (e : EventId) :
    e ∈ (phase1Graph log).irels a b r ↔
      ∃ p ∈ propsAux log [] log.events,
        (a, b, r) = (p.src, p.tgt, p.rel.relation_index) ∧ e ∈ evSet p.ev := by
  unfold phase1Graph
  rw [foldl_apply_mem_irels]
  simp [refGraph, Ocdg.empty]

/-- Every primitive proposal records one event of the log that contains
both of its endpoints, with single-event evidence. -/
theorem propsAux_shape (log : Ocel) (p : Proposal)
    (hp : p ∈ propsAux log [] log.events) :
    ∃ eid ev, (eid, ev) ∈ log.events ∧ p.src ∈ ev.omap ∧ p.tgt ∈ ev.omap ∧
      p.src ≠ p.tgt ∧ p.ev = .SINGLE eid ∧
      (p.rel = .INTERACTS ∨ p.rel = .DESCENDANTS) := by
  rw [mem_propsAux] at hp
  obtain ⟨pre, eid, ev, post, hsplit, hp⟩ := hp
  rw [mem_eventProps] at hp
  obtain ⟨a, ha, b, hb, hab, hor⟩ := hp
  have hev : (eid, ev) ∈ log.events := by
    rw [hsplit]
    exact List.mem_append_right _ (List.mem_cons_self _ _)
  rcases hor with hI | hD
  · rw [mem_execute_primitive_INTERACTS] at hI
    subst hI
    exact ⟨eid, ev, hev, ha, hb, hab, rfl, Or.inl rfl⟩
  · rw [mem_execute_primitive_DESCENDANTS] at hD
    obtain ⟨hpe, -⟩ := hD
    subst hpe
    exact ⟨eid, ev, hev, ha, hb, hab, rfl, Or.inr rfl⟩

/-! ### Example logs used by the witnesses -/

/-- The end-to-end scenario of the spec: three objects of one type, two
overlapping events. -/
def exLog : Ocel :=
  ⟨[(1, ⟨[10, 20]⟩), (2, ⟨[20, 30]⟩)],
   [(10, ⟨"A"⟩), (20, ⟨"A"⟩), (30, ⟨"A"⟩)]⟩

def allRelations : List Relations :=
  [.INTERACTS, .COLIFE, .COBIRTH, .CODEATH, .DESCENDANTS, .INHERITANCE,
   .CONSUMES, .SPLIT, .MERGE, .MINION, .PEELER, .ENGAGES]

/-! ### C2 -/

/-- C2: after the ingestion pass of `generate_ocdg` (phase 1), for every
event `e` of the log and every ordered pair `(a, b)` of distinct objects
in its object set, the INTERACTS evidence stored for the directed edge
`(a, b)` contains `e`. -/
theorem interacts_evidence_after_ingestion (log : Ocel)
    (hwf : WellFormedLog log) (g : Ocdg) (hg : phase1 log = .ok g)
    (eid : EventId) (ev : OcelEvent) (hev : (eid, ev) ∈ log.events)
    (a b : ObjectId) (ha : a ∈ ev.omap) (hb : b ∈ ev.omap) (hab : a ≠ b) :
    eid ∈ g.irels a b Relations.INTERACTS.relation_index := by
  have hgg : phase1Graph log = g := by
    have hh := hg
    rwa [phase1_run_wf log hwf, Except.ok.injEq] at hh
  subst hgg
  rw [phase1Graph_mem_irels]
  obtain ⟨pre, post, hsplit⟩ := List.append_of_mem hev
  refine ⟨⟨a, b, .SINGLE eid, .INTERACTS⟩, ?_, rfl, by simp [evSet]⟩
  rw [mem_propsAux]
  exact ⟨pre, eid, ev, post, hsplit,
    (mem_eventProps _ _ _ _).mpr
      ⟨a, ha, b, hb, hab,
        Or.inl ((mem_execute_primitive_INTERACTS _ _ _ _ _).mpr rfl)⟩⟩

/-- Witness for C2 at the example log. -/
theorem interacts_evidence_after_ingestion_witness :
    WellFormedLog exLog ∧
    1 ∈ ((phase1 exLog).toOption.getD Ocdg.empty).irels 10 20
      Relations.INTERACTS.relation_index :=
  ⟨by decide,
   interacts_evidence_after_ingestion exLog (by decide) _ (by rfl)
     1 ⟨[10, 20]⟩ (by decide) 10 20 (by decide) (by decide) (by decide)⟩

/-! ### C1 -/

theorem exists_mem_flatMap_iff_of_perm {α β : Type} (o1 o2 : List α)
    (h : o1.Perm o2) (f : α → List β) (P : β → Prop) :
    (∃ p ∈ o1.flatMap f, P p) ↔ (∃ p ∈ o2.flatMap f, P p) := by
  constructor
  · rintro ⟨p, hp, hP⟩
    rw [List.mem_flatMap] at hp
    obtain ⟨x, hx, hpx⟩ := hp
    exact ⟨p, List.mem_flatMap.mpr ⟨x, h.mem_iff.mp hx, hpx⟩, hP⟩
  · rintro ⟨p, hp, hP⟩
    rw [List.mem_flatMap] at hp
    obtain ⟨x, hx, hpx⟩ := hp
    exact ⟨p, List.mem_flatMap.mpr ⟨x, h.mem_iff.mpr hx, hpx⟩, hP⟩

/-- C1: `generate_ocdg` is deterministic and scheduling-independent.  The
embedding of the construction is a pure function of the log and the
relation selection, so re-running it any number of times returns the
identical result; this theorem states the remaining content: the results
of any two runs of `generate_sched` whose phase-2 task schedules are
permutations of each other (the source's `par_iter` may collect per-node
tasks in any order) have the same node list, the same directed-edge set,
the same evidence-index keys and the same evidence sets. -/
theorem generate_ocdg_schedule_invariant (log : Ocel) (rels : List Relations)
    (o1 o2 : List ObjectId) (hperm : o1.Perm o2) (g1 g2 : Ocdg)
    (h1 : generate_sched log rels o1 = .ok g1)
    (h2 : generate_sched log rels o2 = .ok g2) :
    g1.nodes = g2.nodes ∧
    (∀ x, x ∈ g1.edges ↔ x ∈ g2.edges) ∧
    g1.irelsKeys = g2.irelsKeys ∧
    (∀ a b r, g1.irels a b r = g2.irels a b r) := by
  unfold generate_sched at h1 h2
  rcases hp : phase1 log with o | g0
  · rw [hp] at h1; cases h1
  · rw [hp] at h1 h2
    rw [Except.ok.injEq] at h1 h2
    subst h1; subst h2
    unfold phase23
    set f := whole_instance_edges log g0 (relSelWhole rels) (relSelInst rels) with hf
    refine ⟨?_, ?_, ?_, ?_⟩
    · rw [foldl_apply_nodes, foldl_apply_nodes]
    · intro x
      rw [foldl_apply_mem_edges, foldl_apply_mem_edges]
      have hiff := exists_mem_flatMap_iff_of_perm o1 o2 hperm f
        (fun p => x = (p.src, p.tgt))
      rw [hiff]
    · apply Finset.ext
      intro k
      rw [foldl_apply_mem_keys, foldl_apply_mem_keys]
      have hiff := exists_mem_flatMap_iff_of_perm o1 o2 hperm f
        (fun p => k = (p.src, p.tgt, p.rel.relation_index))
      rw [hiff]
    · intro a b r
      apply Finset.ext
      intro e
      rw [foldl_apply_mem_irels, foldl_apply_mem_irels]
      have hiff := exists_mem_flatMap_iff_of_perm o1 o2 hperm f
        (fun p => (a, b, r) = (p.src, p.tgt, p.rel.relation_index) ∧ e ∈ evSet p.ev)
      rw [hiff]

/-- Witness for C1: two opposite schedules over the example log. -/
theorem generate_ocdg_schedule_invariant_witness :
    ([10, 20, 30] : List ObjectId).Perm [30, 20, 10] ∧
    (((generate_sched exLog allRelations [10, 20, 30]).toOption.getD
        Ocdg.empty).nodes =
      ((generate_sched exLog allRelations [30, 20, 10]).toOption.getD
        Ocdg.empty).nodes ∧
     (∀ x, x ∈ ((generate_sched exLog allRelations [10, 20, 30]).toOption.getD
          Ocdg.empty).edges ↔
        x ∈ ((generate_sched exLog allRelations [30, 20, 10]).toOption.getD
          Ocdg.empty).edges) ∧
     ((generate_sched exLog allRelations [10, 20, 30]).toOption.getD
        Ocdg.empty).irelsKeys =
      ((generate_sched exLog allRelations [30, 20, 10]).toOption.getD
        Ocdg.empty).irelsKeys ∧
     (∀ a b r, ((generate_sched exLog allRelations [10, 20, 30]).toOption.getD
          Ocdg.empty).irels a b r =
        ((generate_sched exLog allRelations [30, 20, 10]).toOption.getD
          Ocdg.empty).irels a b r)) :=
  ⟨by decide,
   generate_ocdg_schedule_invariant exLog allRelations [10, 20, 30] [30, 20, 10]
     (by decide) _ _ (by rfl) (by rfl)⟩

/-! ### Success and failure of the construction (C9 support) -/

theorem registerList_no_error (log : Ocel) (eid : EventId) :
    ∀ (os : List ObjectId) (g : Ocdg),
      (∀ oid ∈ os, (lookupObject log oid).isSome) →
      ∃ g', registerList log eid os g = .ok g' := by
  intro os
  induction os with
  | nil => intro g _; exact ⟨g, rfl⟩
  | cons oid os ih =>
    intro g hdecl
    rcases hattr : g.node_attributes oid with _ | info
    · obtain ⟨obj, hobj⟩ := Option.isSome_iff_exists.mp
        (hdecl oid (List.mem_cons_self _ _))
      obtain ⟨g', hg'⟩ := ih ((g.registerNode oid obj.obj_type).add_eid_to_oe oid eid)
        (fun o ho => hdecl o (List.mem_cons_of_mem _ ho))
      exact ⟨g', by simp only [registerList, registerOne, hattr, hobj, hg']⟩
    · obtain ⟨g', hg'⟩ := ih (g.add_eid_to_oe oid eid)
        (fun o ho => hdecl o (List.mem_cons_of_mem _ ho))
      exact ⟨g', by simp only [registerList, registerOne, hattr, hg']⟩

theorem registerList_error (log : Ocel) (eid : EventId) :
    ∀ (os : List ObjectId) (g : Ocdg) (o : ObjectId),
      registerList log eid os g = .error o →
      o ∈ os ∧ lookupObject log o = none := by
  intro os
  induction os with
  | nil => intro g o h; cases h
  | cons oid os ih =>
    intro g o h
    rcases hattr : g.node_attributes oid with _ | info
    · rcases hobj : lookupObject log oid with _ | obj
      · simp only [registerList, registerOne, hattr, hobj] at h
        obtain rfl : oid = o := by injection h
        exact ⟨List.mem_cons_self _ _, hobj⟩
      · simp only [registerList, registerOne, hattr, hobj] at h
        obtain ⟨hmem, hnone⟩ := ih _ o h
        exact ⟨List.mem_cons_of_mem _ hmem, hnone⟩
    · simp only [registerList, registerOne, hattr] at h
      obtain ⟨hmem, hnone⟩ := ih _ o h
      exact ⟨List.mem_cons_of_mem _ hmem, hnone⟩

theorem ingestList_no_error (log : Ocel) :
    ∀ (rest : List (EventId × OcelEvent)) (g : Ocdg) (props : List Proposal),
      (∀ p ∈ rest, ∀ oid ∈ p.2.omap, (lookupObject log oid).isSome) →
      ∃ out, ingestList log rest g props = .ok out := by
  intro rest
  induction rest with
  | nil => intro g props _; exact ⟨(g, props), rfl⟩
  | cons q rest ih =>
    rcases q with ⟨eid, ev⟩
    intro g props hdecl
    obtain ⟨g2, hg2⟩ := registerList_no_error log eid ev.omap g
      (fun oid ho => hdecl (eid, ev) (List.mem_cons_self _ _) oid ho)
    obtain ⟨out, hout⟩ := ih g2 (props ++ eventProps g2 eid ev.omap)
      (fun p hp => hdecl p (List.mem_cons_of_mem _ hp))
    exact ⟨out, by simp only [ingestList, hg2, hout]⟩

theorem ingestList_error (log : Ocel) :
    ∀ (rest : List (EventId × OcelEvent)) (g : Ocdg) (props : List Proposal)
      (o : ObjectId),
      ingestList log rest g props = .error o →
      (∃ p ∈ rest, o ∈ p.2.omap) ∧ lookupObject log o = none := by
  intro rest
  induction rest with
  | nil => intro g props o h; cases h
  | cons q rest ih =>
    rcases q with ⟨eid, ev⟩
    intro g props o h
    rcases hreg : registerList log eid ev.omap g with o2 | g2
    · simp only [ingestList, hreg] at h
      obtain rfl : o2 = o := by injection h
      obtain ⟨hmem, hnone⟩ := registerList_error log eid ev.omap g o2 hreg
      exact ⟨⟨(eid, ev), List.mem_cons_self _ _, hmem⟩, hnone⟩
    · simp only [ingestList, hreg] at h
      obtain ⟨⟨p, hp, hop⟩, hnone⟩ := ih _ _ o h
      exact ⟨⟨p, List.mem_cons_of_mem _ hp, hop⟩, hnone⟩

/-! ### C9 -/

/-- C9: if every object referenced by an event is declared, the
construction completes without error (an empty log yields the empty
graph); the only failure is an event referencing an undeclared object,
which aborts the whole construction with that identifier, there being no
partial result in the `Except` model. -/
theorem generate_ocdg_error_contract (log : Ocel) (rels : List Relations) :
    ((∀ p ∈ log.events, ∀ oid ∈ p.2.omap, (lookupObject log oid).isSome) →
      ∃ g, generate_ocdg log rels = .ok g) ∧
    (∀ o, generate_ocdg log rels = .error o →
      (∃ p ∈ log.events, o ∈ p.2.omap) ∧ lookupObject log o = none) ∧
    (log.events = [] → generate_ocdg log rels = .ok Ocdg.empty) := by
  refine ⟨?_, ?_, ?_⟩
  · intro hdecl
    obtain ⟨⟨g1, props⟩, hout⟩ :=
      ingestList_no_error log log.events Ocdg.empty [] hdecl
    refine ⟨phase23 log rels (props.foldl Ocdg.apply_new_edges g1).nodes
      (props.foldl Ocdg.apply_new_edges g1), ?_⟩
    simp only [generate_ocdg, phase1, hout]
  · intro o h
    unfold generate_ocdg phase1 at h
    rcases hing : ingestList log log.events Ocdg.empty [] with o2 | out
    · rw [hing] at h
      obtain rfl : o2 = o := by injection h
      exact ingestList_error log log.events Ocdg.empty [] o2 hing
    · rw [hing] at h
      cases h
  · intro hempty
    rcases log with ⟨es, objs⟩
    simp only at hempty
    subst hempty
    rfl

/-- Witness for C9: success on the example log; the failing identifier of
a log whose event references the undeclared object 99. -/
theorem generate_ocdg_error_contract_witness :
    (∃ g, generate_ocdg exLog allRelations = .ok g) ∧
    ((∃ p ∈ (Ocel.mk [(1, ⟨[10, 99]⟩)] [(10, ⟨"A"⟩)]).events, 99 ∈ p.2.omap) ∧
      lookupObject (Ocel.mk [(1, ⟨[10, 99]⟩)] [(10, ⟨"A"⟩)]) 99 = none) :=
  ⟨(generate_ocdg_error_contract exLog allRelations).1 (by decide),
   (generate_ocdg_error_contract (Ocel.mk [(1, ⟨[10, 99]⟩)] [(10, ⟨"A"⟩)])
     allRelations).2.1 99 (by rfl)⟩

/-! ### C10 -/

theorem generate_run_wf (log : Ocel) (rels : List Relations)
    (hwf : WellFormedLog log) :
    generate_ocdg log rels =
      .ok (phase23 log rels (nodesOf log.events) (phase1Graph log)) := by
  unfold generate_ocdg
  simp only [phase1_run_wf log hwf]
  rw [phase1Graph_nodes]

theorem phase23_attrs (log : Ocel) (rels : List Relations)
    (order : List ObjectId) (g : Ocdg) :
    (phase23 log rels order g).node_attributes = g.node_attributes := by
  unfold phase23
  rw [foldl_apply_attrs]

theorem phase23_nodes (log : Ocel) (rels : List Relations)
    (order : List ObjectId) (g : Ocdg) :
    (phase23 log rels order g).nodes = g.nodes := by
  unfold phase23
  rw [foldl_apply_nodes]

/-- C10: in the graph produced by `generate_ocdg`, every object with a
node has attributes whose lifeline is non-empty (it contains the event
that created the node), so the first and last element lookups of the
Instance- and Whole-tier evaluators are always defined. -/
theorem node_lifelines_nonempty (log : Ocel) (rels : List Relations)
    (hwf : WellFormedLog log) (g : Ocdg)
    (hg : generate_ocdg log rels = .ok g) :
    (∀ oid ∈ g.nodes, ∃ info, g.node_attributes oid = some info) ∧
    (∀ oid info, g.node_attributes oid = some info →
      info.object_events ≠ [] ∧ info.object_events.head?.isSome ∧
        info.object_events.getLast?.isSome) := by
  have hgg : phase23 log rels (nodesOf log.events) (phase1Graph log) = g := by
    have hh := hg
    rwa [generate_run_wf log rels hwf, Except.ok.injEq] at hh
  subst hgg
  have hattrs : (phase23 log rels (nodesOf log.events)
      (phase1Graph log)).node_attributes = attrsOf log log.events := by
    rw [phase23_attrs, phase1Graph_attrs]
  have hnodes : (phase23 log rels (nodesOf log.events)
      (phase1Graph log)).nodes = nodesOf log.events := by
    rw [phase23_nodes, phase1Graph_nodes]
  constructor
  · intro oid hmem
    rw [hnodes] at hmem
    rw [hattrs]
    unfold attrsOf
    rw [if_pos hmem]
    exact ⟨_, rfl⟩
  · intro oid info hinfo
    rw [hattrs] at hinfo
    unfold attrsOf at hinfo
    by_cases hmem : oid ∈ nodesOf log.events
    · rw [if_pos hmem] at hinfo
      obtain rfl : NodeInfo.mk (typeOfD log oid) (oeOf log.events oid) = info := by
        injection hinfo
      obtain ⟨p, hp, hop⟩ := (mem_nodesOf log.events oid).mp hmem
      have hne : oeOf log.events oid ≠ [] := by
        intro hnil
        have : p.1 ∈ oeOf log.events oid :=
          (mem_oeOf log.events oid p.1).mpr ⟨p.2, by simpa using hp, hop⟩
        rw [hnil] at this
        cases this
      refine ⟨hne, ?_, ?_⟩
      · simpa [List.head?_isSome] using hne
      · simpa [List.getLast?_isSome] using hne
    · rw [if_neg hmem] at hinfo
      cases hinfo

/-- Witness for C10 at the example log. -/
theorem node_lifelines_nonempty_witness :
    ∃ info,
      ((generate_ocdg exLog allRelations).toOption.getD
        Ocdg.empty).node_attributes 10 = some info ∧ info.object_events ≠ [] := by
  obtain ⟨info, hinfo⟩ :=
    (node_lifelines_nonempty exLog allRelations (by decide) _ (by rfl)).1 10
      (by decide)
  exact ⟨info, hinfo,
    ((node_lifelines_nonempty exLog allRelations (by decide) _ (by rfl)).2 10
      info hinfo).1⟩

/-! ### Kind faithfulness of the evaluators -/

theorem relation_index_injective (r s : Relations)
    (h : r.relation_index = s.relation_index) : r = s := by
  revert h
  revert r s
  decide

theorem execute_faithful (r : Relations) (log : Ocel) (g : Ocdg)
    (a b : ObjectId) (p : Proposal) (hp : p ∈ r.execute log g a b) :
    p.rel = r := by
  unfold Relations.execute at hp
  rcases hA : g.node_attributes a with _ | s
  · simp only [hA] at hp
    cases hp
  · rcases hB : g.node_attributes b with _ | t
    · simp only [hA, hB] at hp
      cases hp
    · simp only [hA, hB] at hp
      cases r <;> simp only [] at hp <;> (try (repeat' split at hp)) <;>
        simp only [List.mem_singleton, List.mem_cons, List.not_mem_nil,
          or_false, false_or] at hp <;>
        ((try cases hp) <;> simp_all)

theorem execute_whole_faithful (r : Relations) (log : Ocel) (g : Ocdg)
    (oid1 : ObjectId) (neigh : List ObjectId) (p : Proposal)
    (hp : p ∈ r.execute_whole log g oid1 neigh) : p.rel = r := by
  unfold Relations.execute_whole at hp
  rcases hA : g.node_attributes oid1 with _ | s
  · simp only [hA] at hp
    cases hp
  · simp only [hA] at hp
    cases r <;> simp only [] at hp <;> (try (repeat' split at hp)) <;>
      first
      | cases hp
      | (obtain ⟨x, hx, hpx⟩ := List.mem_map.mp hp; rw [← hpx])

theorem mem_whole_instance_edges_rel (log : Ocel) (g : Ocdg)
    (rw ri : List Relations) (oid1 : ObjectId) (p : Proposal)
    (hp : p ∈ whole_instance_edges log g rw ri oid1) :
    p.rel ∈ rw ∨ p.rel ∈ ri := by
  unfold whole_instance_edges at hp
  rcases List.mem_append.mp hp with hL | hR
  · obtain ⟨r, hr, hpr⟩ := List.mem_flatMap.mp hL
    exact Or.inl (execute_whole_faithful r log g oid1 _ p hpr ▸ hr)
  · obtain ⟨oid2, _, hpo⟩ := List.mem_flatMap.mp hR
    by_cases hgate : 0 < relCount g oid1 oid2
    · rw [if_pos hgate] at hpo
      obtain ⟨r, hr, hpr⟩ := List.mem_flatMap.mp hpo
      exact Or.inr (execute_faithful r log g oid1 oid2 p hpr ▸ hr)
    · rw [if_neg hgate] at hpo
      cases hpo

/-! ### C4 -/

/-- C4 as stated is false: the primitive INTERACTS evaluator runs even
when INTERACTS is not in the relation selection — with the empty
selection the resulting graph still stores INTERACTS evidence. -/
theorem unselected_kinds_counterexample :
    Relations.INTERACTS ∉ ([] : List Relations) ∧
    generate_ocdg exLog [] =
      .ok ((generate_ocdg exLog []).toOption.getD Ocdg.empty) ∧
    1 ∈ ((generate_ocdg exLog []).toOption.getD Ocdg.empty).irels 10 20
      Relations.INTERACTS.relation_index :=
  ⟨by decide, by rfl, by decide⟩

/-- C4 amended: evaluators for unselected Instance- and Whole-tier
relation kinds are never executed and contribute no edge keys and no
evidence; the Primitive-tier kinds INTERACTS and DESCENDANTS, however,
are hard-wired into the ingestion pass and run regardless of the
selection. -/
theorem unselected_tier23_kinds_no_evidence (log : Ocel)
    (rels : List Relations) (hwf : WellFormedLog log) (g : Ocdg)
    (hg : generate_ocdg log rels = .ok g) (r : Relations) (hsel : r ∉ rels)
    (htier : r.relation_type ≠ 1) (a b : ObjectId) :
    (a, b, r.relation_index) ∉ g.irelsKeys ∧
    g.irels a b r.relation_index = ∅ := by
  have hgg : phase23 log rels (nodesOf log.events) (phase1Graph log) = g := by
    have hh := hg
    rwa [generate_run_wf log rels hwf, Except.ok.injEq] at hh
  subst hgg
  have hnotprim : ∀ p ∈ propsAux log [] log.events,
      (a, b, r.relation_index) ≠ (p.src, p.tgt, p.rel.relation_index) := by
    intro p hp hkey
    obtain ⟨eid, ev, -, -, -, -, -, hrel⟩ := propsAux_shape log p hp
    have hidx : r.relation_index = p.rel.relation_index := by
      have := congrArg (fun k => k.2.2) hkey
      simpa using this
    have hr : r = p.rel := relation_index_injective _ _ hidx
    rcases hrel with h1 | h1 <;> rw [h1] at hr <;> subst hr <;>
      exact htier rfl
  have hnotsel : ∀ p, (∃ oid ∈ nodesOf log.events,
      p ∈ whole_instance_edges log (phase1Graph log) (relSelWhole rels)
        (relSelInst rels) oid) →
      (a, b, r.relation_index) ≠ (p.src, p.tgt, p.rel.relation_index) := by
    rintro p ⟨oid, -, hp⟩ hkey
    have hidx : r.relation_index = p.rel.relation_index := by
      have := congrArg (fun k => k.2.2) hkey
      simpa using this
    have hr : r = p.rel := relation_index_injective _ _ hidx
    rcases mem_whole_instance_edges_rel _ _ _ _ _ _ hp with hmem | hmem
    · rw [← hr] at hmem
      exact hsel (List.mem_filter.mp hmem).1
    · rw [← hr] at hmem
      exact hsel (List.mem_filter.mp hmem).1
  constructor
  · intro hmem
    unfold phase23 at hmem
    rcases (foldl_apply_mem_keys _ _ _).mp hmem with hk | ⟨p, hp, hkey⟩
    · rcases (phase1Graph_mem_keys _ _).mp hk with ⟨p, hp, hkey⟩
      exact hnotprim p hp hkey
    · obtain ⟨oid, hoid, hpo⟩ := List.mem_flatMap.mp hp
      exact hnotsel p ⟨oid, hoid, hpo⟩ hkey
  · apply Finset.eq_empty_iff_forall_not_mem.mpr
    intro e hmem
    unfold phase23 at hmem
    rcases (foldl_apply_mem_irels _ _ _ _ _ _).mp hmem with hk | ⟨p, hp, hkey, -⟩
    · rcases (phase1Graph_mem_irels _ _ _ _ _).mp hk with ⟨p, hp, hkey, -⟩
      exact hnotprim p hp hkey
    · obtain ⟨oid, hoid, hpo⟩ := List.mem_flatMap.mp hp
      exact hnotsel p ⟨oid, hoid, hpo⟩ hkey

/-- Witness for the amended C4: MERGE is not in the selection, so no
MERGE key or evidence appears. -/
theorem unselected_tier23_kinds_no_evidence_witness :
    (10, 20, Relations.MERGE.relation_index) ∉
      ((generate_ocdg exLog [Relations.COLIFE]).toOption.getD
        Ocdg.empty).irelsKeys ∧
    ((generate_ocdg exLog [Relations.COLIFE]).toOption.getD
      Ocdg.empty).irels 10 20 Relations.MERGE.relation_index = ∅ :=
  unselected_tier23_kinds_no_evidence exLog [Relations.COLIFE] (by decide) _
    (by rfl) Relations.MERGE (by decide) (by decide) 10 20

/-! ### C7 -/

/-- C7: for an evaluated ordered pair `(a, b)` with non-empty frozen
lifelines, the MERGE evaluator fires iff the two objects have the same
type and `a`'s last lifeline event differs from `b`'s, and the proposal
it emits carries exactly the singleton evidence of `a`'s last event. -/
theorem merge_rule (log : Ocel) (g : Ocdg) (a b : ObjectId)
    (sa sb : NodeInfo) (hA : g.node_attributes a = some sa)
    (hB : g.node_attributes b = some sb) (ea eb : EventId)
    (ha : sa.object_events.getLast? = some ea)
    (hb : sb.object_events.getLast? = some eb) :
    Relations.MERGE.execute log g a b =
      if sa.node_type = sb.node_type ∧ ¬ ea = eb then
        [⟨a, b, .SINGLE ea, .MERGE⟩]
      else [] := by
  unfold Relations.execute
  simp only [hA, hB, ha, hb]

/-- Witness for C7 on the phase-1 state of the example log. -/
theorem merge_rule_witness :
    Relations.MERGE.execute exLog (phase1Graph exLog) 10 20 =
      if ("A" : String) = "A" ∧ ¬ (1 : EventId) = 2 then
        [⟨10, 20, .SINGLE 1, .MERGE⟩]
      else [] :=
  merge_rule exLog (phase1Graph exLog) 10 20 ⟨"A", [1]⟩ ⟨"A", [1, 2]⟩
    (by decide) (by decide) 1 2 (by decide) (by decide)

/-! ### C6 -/

theorem peelerWalk_spec (log : Ocel) (a b : ObjectId) :
    ∀ (S : List EventId) (acc : Finset EventId),
      peelerWalk log a b S acc =
        if ∃ e ∈ S, 2 < (omapOf log e).length ∧ a ∈ omapOf log e ∧
            b ∈ omapOf log e
        then none
        else some (acc ∪ S.toFinset) := by
  intro S
  induction S with
  | nil => intro acc; simp [peelerWalk]
  | cons e rest ih =>
    intro acc
    by_cases hbad : 2 < (omapOf log e).length ∧ a ∈ omapOf log e ∧
        b ∈ omapOf log e
    · rw [if_pos ⟨e, List.mem_cons_self _ _, hbad⟩]
      unfold peelerWalk
      rw [if_pos hbad]
    · unfold peelerWalk
      rw [if_neg hbad, ih (insert e acc)]
      by_cases hrest : ∃ e2 ∈ rest, 2 < (omapOf log e2).length ∧
          a ∈ omapOf log e2 ∧ b ∈ omapOf log e2
      · rw [if_pos hrest]
        obtain ⟨e2, he2, hb2⟩ := hrest
        rw [if_pos ⟨e2, List.mem_cons_of_mem _ he2, hb2⟩]
      · rw [if_neg hrest]
        have hcons : ¬ ∃ e2 ∈ e :: rest, 2 < (omapOf log e2).length ∧
            a ∈ omapOf log e2 ∧ b ∈ omapOf log e2 := by
          rintro ⟨e2, he2, hb2⟩
          rcases List.mem_cons.mp he2 with rfl | he2
          · exact hbad hb2
          · exact hrest ⟨e2, he2, hb2⟩
        rw [if_neg hcons]
        congr 1
        rw [List.toFinset_cons, Finset.union_insert, Finset.insert_union]

theorem peeler_eq (log : Ocel) (g : Ocdg) (a b : ObjectId)
    (sa sb : NodeInfo) (hA : g.node_attributes a = some sa)
    (hB : g.node_attributes b = some sb) (hab : a < b) :
    Relations.PEELER.execute log g a b =
      (if sb.object_events.length < sa.object_events.length then
        (if ∃ e ∈ sb.object_events, 2 < (omapOf log e).length ∧
            a ∈ omapOf log e ∧ b ∈ omapOf log e then []
         else [⟨a, b, .MULTI sb.object_events.toFinset, .PEELER⟩,
               ⟨b, a, .MULTI sb.object_events.toFinset, .PEELER⟩])
      else
        (if ∃ e ∈ sa.object_events, 2 < (omapOf log e).length ∧
            a ∈ omapOf log e ∧ b ∈ omapOf log e then []
         else [⟨a, b, .MULTI sa.object_events.toFinset, .PEELER⟩,
               ⟨b, a, .MULTI sa.object_events.toFinset, .PEELER⟩])) := by
  unfold Relations.execute
  simp only [hA, hB, if_pos hab]
  by_cases hlen : sb.object_events.length < sa.object_events.length
  · rw [if_pos hlen, if_pos hlen, peelerWalk_spec]
    by_cases hbad : ∃ e ∈ sb.object_events, 2 < (omapOf log e).length ∧
        a ∈ omapOf log e ∧ b ∈ omapOf log e
    · rw [if_pos hbad, if_pos hbad]
    · rw [if_neg hbad, if_neg hbad]
      simp
  · rw [if_neg hlen, if_neg hlen, peelerWalk_spec]
    by_cases hbad : ∃ e ∈ sa.object_events, 2 < (omapOf log e).length ∧
        a ∈ omapOf log e ∧ b ∈ omapOf log e
    · rw [if_pos hbad, if_pos hbad]
    · rw [if_neg hbad, if_neg hbad]
      simp

/-- C6: for an evaluated pair `a < b`, PEELER walks the shorter of the
two frozen lifelines (ties favouring `a`'s), yields nothing when some
walked event has an object set of more than two members containing both
`a` and `b`, and otherwise emits both directed edges with evidence equal
to the set of the walked lifeline's events. -/
theorem peeler_rule (log : Ocel) (g : Ocdg) (a b : ObjectId)
    (sa sb : NodeInfo) (hA : g.node_attributes a = some sa)
    (hB : g.node_attributes b = some sb) (hab : a < b) :
    Relations.PEELER.execute log g a b =
      (if sb.object_events.length < sa.object_events.length then
        (if ∃ e ∈ sb.object_events, 2 < (omapOf log e).length ∧
            a ∈ omapOf log e ∧ b ∈ omapOf log e then []
         else [⟨a, b, .MULTI sb.object_events.toFinset, .PEELER⟩,
               ⟨b, a, .MULTI sb.object_events.toFinset, .PEELER⟩])
      else
        (if ∃ e ∈ sa.object_events, 2 < (omapOf log e).length ∧
            a ∈ omapOf log e ∧ b ∈ omapOf log e then []
         else [⟨a, b, .MULTI sa.object_events.toFinset, .PEELER⟩,
               ⟨b, a, .MULTI sa.object_events.toFinset, .PEELER⟩])) :=
  peeler_eq log g a b sa sb hA hB hab

/-- Witness for C6 on the phase-1 state of the example log. -/
theorem peeler_rule_witness :
    Relations.PEELER.execute exLog (phase1Graph exLog) 10 20 =
      (if (2 : Nat) < 1 then
        (if ∃ e ∈ ([1, 2] : List EventId), 2 < (omapOf exLog e).length ∧
            10 ∈ omapOf exLog e ∧ 20 ∈ omapOf exLog e then []
         else [⟨10, 20, .MULTI ([1, 2] : List EventId).toFinset, .PEELER⟩,
               ⟨20, 10, .MULTI ([1, 2] : List EventId).toFinset, .PEELER⟩])
      else
        (if ∃ e ∈ ([1] : List EventId), 2 < (omapOf exLog e).length ∧
            10 ∈ omapOf exLog e ∧ 20 ∈ omapOf exLog e then []
         else [⟨10, 20, .MULTI ([1] : List EventId).toFinset, .PEELER⟩,
               ⟨20, 10, .MULTI ([1] : List EventId).toFinset, .PEELER⟩])) :=
  peeler_rule exLog (phase1Graph exLog) 10 20 ⟨"A", [1]⟩ ⟨"A", [1, 2]⟩
    (by decide) (by decide) (by decide)

/-! ### C3 -/

theorem descFires_refGraph (log : Ocel) (es : List (EventId × OcelEvent))
    (a b : ObjectId) (ha : a ∈ nodesOf es) (hb : b ∈ nodesOf es) :
    descFires (refGraph log es) a b ↔
      1 < (oeOf es a).length ∧ (oeOf es b).length = 1 := by
  unfold descFires refGraph
  simp [attrsOf, ha, hb]

theorem eventBody_unique (log : Ocel)
    (hnodup : (log.events.map Prod.fst).Nodup) (e : EventId)
    (ev ev' : OcelEvent) (pre post : List (EventId × OcelEvent))
    (hsplit : log.events = pre ++ (e, ev') :: post)
    (hev : (e, ev) ∈ log.events) : ev = ev' := by
  rw [hsplit] at hev hnodup
  rw [List.map_append, List.map_cons] at hnodup
  rcases List.mem_append.mp hev with hpre | hmid
  · exfalso
    have hd := List.disjoint_of_nodup_append hnodup
    exact hd (List.mem_map_of_mem Prod.fst hpre) (List.mem_cons_self _ _)
  · rcases List.mem_cons.mp hmid with heq | hpost
    · exact congrArg Prod.snd heq
    · exfalso
      have h2 := (List.nodup_append.mp hnodup).2.1
      have h3 := (List.nodup_cons.mp h2).1
      exact h3 (List.mem_map.mpr ⟨(e, ev), hpost, rfl⟩)

theorem phase2_props_not_primitive (log : Ocel) (g : Ocdg)
    (rels : List Relations) (order : List ObjectId) (p : Proposal)
    (hp : p ∈ order.flatMap
      (whole_instance_edges log g (relSelWhole rels) (relSelInst rels))) :
    p.rel.relation_type ≠ 1 := by
  obtain ⟨oid, -, hpo⟩ := List.mem_flatMap.mp hp
  rcases mem_whole_instance_edges_rel _ _ _ _ _ _ hpo with hmem | hmem
  · have := (List.mem_filter.mp hmem).2
    intro hc
    rw [hc] at this
    cases this
  · have := (List.mem_filter.mp hmem).2
    intro hc
    rw [hc] at this
    cases this

/-- The final evidence of a Primitive-tier kind is exactly its phase-1
evidence: the parallel pass contributes no primitive proposals. -/
theorem phase23_irels_primitive (log : Ocel) (rels : List Relations)
    (order : List ObjectId) (g0 : Ocdg) (r : Relations)
    (hr : r.relation_type = 1) (a b : ObjectId) (e : EventId) :
    e ∈ (phase23 log rels order g0).irels a b r.relation_index ↔
      e ∈ g0.irels a b r.relation_index := by
  unfold phase23
  rw [foldl_apply_mem_irels]
  constructor
  · rintro (h | ⟨p, hp, hkey, -⟩)
    · exact h
    · exfalso
      have hidx : r.relation_index = p.rel.relation_index := by
        have := congrArg (fun k => k.2.2) hkey
        simpa using this
      have := relation_index_injective _ _ hidx
      exact phase2_props_not_primitive log g0 rels order p hp (this ▸ hr)
  · exact Or.inl

/-- C3: the DESCENDANTS evidence for a directed pair `(a, b)` produced by
`generate_ocdg` contains event `e` iff, in the unique position of `e` in
the log, both objects participate, and immediately after appending `e`
to the lifelines `a`'s lifeline is longer than 1 and `b`'s has length
exactly 1. -/
theorem descendants_evidence_iff (log : Ocel) (rels : List Relations)
    (hwf : WellFormedLog log) (g : Ocdg)
    (hg : generate_ocdg log rels = .ok g) (e : EventId) (ev : OcelEvent)
    (hev : (e, ev) ∈ log.events) (a b : ObjectId) (ha : a ∈ ev.omap)
    (hb : b ∈ ev.omap) (hab : a ≠ b) :
    e ∈ g.irels a b Relations.DESCENDANTS.relation_index ↔
      ∃ pre post, log.events = pre ++ (e, ev) :: post ∧
        1 < (oeOf (pre ++ [(e, ev)]) a).length ∧
        (oeOf (pre ++ [(e, ev)]) b).length = 1 := by
  have hgg : phase23 log rels (nodesOf log.events) (phase1Graph log) = g := by
    have hh := hg
    rwa [generate_run_wf log rels hwf, Except.ok.injEq] at hh
  subst hgg
  rw [phase23_irels_primitive log rels _ _ Relations.DESCENDANTS rfl,
    phase1Graph_mem_irels]
  constructor
  · rintro ⟨p, hp, hkey, hev2⟩
    have hidx : Relations.DESCENDANTS.relation_index = p.rel.relation_index := by
      have := congrArg (fun k => k.2.2) hkey
      simpa using this
    have hrel : p.rel = Relations.DESCENDANTS :=
      (relation_index_injective _ _ hidx).symm
    rw [mem_propsAux] at hp
    obtain ⟨pre, eid', ev', post, hsplit, hp⟩ := hp
    rw [mem_eventProps] at hp
    obtain ⟨a', ha', b', hb', hab', hor⟩ := hp
    rcases hor with hI | hD
    · rw [mem_execute_primitive_INTERACTS] at hI
      rw [hI] at hrel
      cases hrel
    · rw [mem_execute_primitive_DESCENDANTS] at hD
      obtain ⟨hpe, hfires⟩ := hD
      subst hpe
      have hsrc : a' = a := by
        have := congrArg (fun k => k.1) hkey
        simpa using this.symm
      have htgt : b' = b := by
        have := congrArg (fun k => k.2.1) hkey
        simpa using this.symm
      subst hsrc; subst htgt
      have he : e = eid' := by
        simpa [evSet] using hev2
      subst he
      rw [List.nil_append] at hfires
      have hbody : ev = ev' := eventBody_unique log hwf.1 e ev ev' pre post hsplit hev
      subst hbody
      rw [descFires_refGraph] at hfires
      · exact ⟨pre, post, hsplit, hfires⟩
      · rw [mem_nodesOf]
        exact ⟨(e, ev), List.mem_append_right _ (List.mem_cons_self _ _), ha'⟩
      · rw [mem_nodesOf]
        exact ⟨(e, ev), List.mem_append_right _ (List.mem_cons_self _ _), hb'⟩
  · rintro ⟨pre, post, hsplit, hlen1, hlen2⟩
    refine ⟨⟨a, b, .SINGLE e, .DESCENDANTS⟩, ?_, rfl, by simp [evSet]⟩
    rw [mem_propsAux]
    refine ⟨pre, e, ev, post, hsplit, ?_⟩
    rw [mem_eventProps]
    refine ⟨a, ha, b, hb, hab, Or.inr ?_⟩
    rw [mem_execute_primitive_DESCENDANTS, List.nil_append]
    refine ⟨rfl, ?_⟩
    rw [descFires_refGraph]
    · exact ⟨hlen1, hlen2⟩
    · rw [mem_nodesOf]
      exact ⟨(e, ev), List.mem_append_right _ (List.mem_cons_self _ _), ha⟩
    · rw [mem_nodesOf]
      exact ⟨(e, ev), List.mem_append_right _ (List.mem_cons_self _ _), hb⟩

/-- Witness for C3: in the example log, event 2 is DESCENDANTS evidence
for the pair (20, 30). -/
theorem descendants_evidence_iff_witness :
    2 ∈ ((generate_ocdg exLog allRelations).toOption.getD
      Ocdg.empty).irels 20 30 Relations.DESCENDANTS.relation_index :=
  (descendants_evidence_iff exLog allRelations (by decide) _ (by rfl) 2
    ⟨[20, 30]⟩ (by decide) 20 30 (by decide) (by decide) (by decide)).mpr
    ⟨[(1, ⟨[10, 20]⟩)], [], by decide, by decide, by decide⟩

/-! ### Shared machinery for C5 and C8 -/

theorem mem_outNeighbors (g : Ocdg) (a b : ObjectId) :
    b ∈ outNeighbors g a ↔ (a, b) ∈ g.edges := by
  unfold outNeighbors
  simp only [List.mem_map, List.mem_filter, beq_iff_eq]
  constructor
  · rintro ⟨⟨x, y⟩, ⟨hmem, hx⟩, hy⟩
    simp only at hx hy
    subst hx; subst hy
    exact hmem
  · intro hmem
    exact ⟨(a, b), ⟨hmem, rfl⟩, rfl⟩

/-- Every phase-1 edge joins two distinct objects that co-occur in some
event of the log. -/
theorem phase1_edge_cooccur (log : Ocel) (a b : ObjectId)
    (hedge : (a, b) ∈ (phase1Graph log).edges) :
    ∃ e ev, (e, ev) ∈ log.events ∧ a ∈ ev.omap ∧ b ∈ ev.omap ∧ a ≠ b := by
  rw [phase1Graph_mem_edges] at hedge
  obtain ⟨p, hp, hkey⟩ := hedge
  obtain ⟨eid, ev, hev, hsrc, htgt, hne, -, -⟩ := propsAux_shape log p hp
  have ha : a = p.src := congrArg Prod.fst hkey
  have hb : b = p.tgt := congrArg Prod.snd hkey
  subst ha; subst hb
  exact ⟨eid, ev, hev, hsrc, htgt, hne⟩

theorem execute_whole_ev_single (r : Relations) (log : Ocel) (g : Ocdg)
    (oid1 : ObjectId) (neigh : List ObjectId) (p : Proposal)
    (hp : p ∈ r.execute_whole log g oid1 neigh) :
    ∃ e, p.ev = .SINGLE e := by
  unfold Relations.execute_whole at hp
  rcases hA : g.node_attributes oid1 with _ | s
  · simp only [hA] at hp
    cases hp
  · simp only [hA] at hp
    cases r <;> simp only [] at hp <;> (try (repeat' split at hp)) <;>
      first
      | cases hp
      | (obtain ⟨x, hx, hpx⟩ := List.mem_map.mp hp
         exact ⟨_, congrArg Proposal.ev hpx.symm⟩)

/-- Every Instance-tier proposal for a pair whose frozen lifelines share
an event carries non-empty evidence. -/
theorem execute_evidence_nonempty (r : Relations) (log : Ocel) (g : Ocdg)
    (a b : ObjectId) (sa sb : NodeInfo)
    (hA : g.node_attributes a = some sa) (hB : g.node_attributes b = some sb)
    (e0 : EventId) (hea : e0 ∈ sa.object_events)
    (heb : e0 ∈ sb.object_events) (p : Proposal)
    (hp : p ∈ r.execute log g a b) : (evSet p.ev).Nonempty := by
  unfold Relations.execute at hp
  simp only [hA, hB] at hp
  cases r
  case INTERACTS => cases hp
  case DESCENDANTS => cases hp
  case SPLIT => cases hp
  case COLIFE =>
    simp only [] at hp
    split at hp
    · rcases List.mem_singleton.mp hp with rfl
      exact ⟨e0, by simp only [evSet, List.mem_toFinset]; exact hea⟩
    · cases hp
  case COBIRTH =>
    simp only [] at hp
    repeat' split at hp
    all_goals simp only [List.mem_cons, List.mem_singleton, List.not_mem_nil,
      or_false] at hp
    all_goals rcases hp with rfl | rfl
    all_goals simp [evSet]
  case CODEATH =>
    simp only [] at hp
    repeat' split at hp
    all_goals simp only [List.mem_cons, List.mem_singleton, List.not_mem_nil,
      or_false] at hp
    all_goals rcases hp with rfl | rfl
    all_goals simp [evSet]
  case INHERITANCE =>
    simp only [] at hp
    repeat' split at hp
    all_goals simp only [List.mem_singleton, List.not_mem_nil] at hp
    all_goals subst hp
    all_goals simp [evSet]
  case CONSUMES =>
    simp only [] at hp
    repeat' split at hp
    all_goals simp only [List.mem_singleton, List.not_mem_nil] at hp
    all_goals subst hp
    all_goals simp [evSet]
  case MERGE =>
    simp only [] at hp
    repeat' split at hp
    all_goals simp only [List.mem_singleton, List.not_mem_nil] at hp
    all_goals subst hp
    all_goals simp [evSet]
  case MINION =>
    simp only [] at hp
    split at hp
    · split at hp
      · rcases List.mem_singleton.mp hp with rfl
        rename_i hlen hcard
        have hne : sb.object_events ≠ [] := by
          intro hc
          rw [hc] at heb
          cases heb
        have hpos : 0 < (listIntersect sa.object_events sb.object_events).length := by
          rw [hcard]
          exact List.length_pos.mpr hne
        obtain ⟨x, hx⟩ := List.exists_mem_of_length_pos hpos
        exact ⟨x, by simp only [evSet, List.mem_toFinset]; exact hx⟩
      · cases hp
    · cases hp
  case PEELER =>
    simp only [] at hp
    rw [peelerWalk_spec] at hp
    split at hp
    · split at hp
      · cases hp
      · rename_i shared heq
        repeat' split at heq
        all_goals cases heq
        all_goals simp only [List.mem_cons, List.mem_singleton,
          List.not_mem_nil, or_false] at hp
        all_goals rcases hp with rfl | rfl
        all_goals refine ⟨e0, ?_⟩
        all_goals simp only [evSet, Finset.empty_union, List.mem_toFinset]
        all_goals first | exact heb | exact hea
    · cases hp
  case ENGAGES =>
    simp only [] at hp
    repeat' split at hp
    all_goals simp only [List.mem_cons, List.mem_singleton, List.not_mem_nil,
      or_false] at hp
    all_goals rcases hp with rfl | rfl
    all_goals exact ⟨e0, by
      simp only [evSet, Finset.mem_inter, List.mem_toFinset]
      exact ⟨hea, heb⟩⟩

/-! ### C8 -/

/-- C8: every stored evidence entry of the final graph is a non-empty set
of event ids, and the single mutation point `apply_new_edges` only grows
evidence sets by set union, never removing an event. -/
theorem evidence_nonempty_monotone (log : Ocel) (rels : List Relations)
    (hwf : WellFormedLog log) (g : Ocdg)
    (hg : generate_ocdg log rels = .ok g) :
    (∀ a b r, (a, b, r) ∈ g.irelsKeys → (g.irels a b r).Nonempty) ∧
    (∀ (g' : Ocdg) (p : Proposal) (a b : ObjectId) (r : Nat),
      g'.irels a b r ⊆ (g'.apply_new_edges p).irels a b r) := by
  constructor
  · have hgg : phase23 log rels (nodesOf log.events) (phase1Graph log) = g := by
      have hh := hg
      rwa [generate_run_wf log rels hwf, Except.ok.injEq] at hh
    subst hgg
    intro a b r hkeymem
    unfold phase23 at hkeymem ⊢
    rcases (foldl_apply_mem_keys _ _ _).mp hkeymem with hk | ⟨p, hp, hkey⟩
    · rcases (phase1Graph_mem_keys _ _).mp hk with ⟨p, hp, hkey⟩
      obtain ⟨eid, ev, -, -, -, -, hsingle, -⟩ := propsAux_shape log p hp
      refine ⟨eid, ?_⟩
      rw [foldl_apply_mem_irels]
      refine Or.inl ((phase1Graph_mem_irels _ _ _ _ _).mpr
        ⟨p, hp, hkey, ?_⟩)
      rw [hsingle]
      simp [evSet]
    · obtain ⟨oid1, ho1, hpt⟩ := List.mem_flatMap.mp hp
      unfold whole_instance_edges at hpt
      rcases List.mem_append.mp hpt with hL | hR
      · obtain ⟨r', hr', hpw⟩ := List.mem_flatMap.mp hL
        obtain ⟨e, he⟩ := execute_whole_ev_single r' log _ oid1 _ p hpw
        refine ⟨e, ?_⟩
        rw [foldl_apply_mem_irels]
        refine Or.inr ⟨p, hp, hkey, ?_⟩
        rw [he]
        simp [evSet]
      · obtain ⟨oid2, hneigh, hpo⟩ := List.mem_flatMap.mp hR
        by_cases hgate : 0 < relCount (phase1Graph log) oid1 oid2
        · rw [if_pos hgate] at hpo
          obtain ⟨r', hr', hpx⟩ := List.mem_flatMap.mp hpo
          have hedge : (oid1, oid2) ∈ (phase1Graph log).edges :=
            (mem_outNeighbors _ _ _).mp hneigh
          obtain ⟨estar, evstar, hevs, h1, h2, -⟩ :=
            phase1_edge_cooccur log oid1 oid2 hedge
          have hm1 : oid1 ∈ nodesOf log.events :=
            (mem_nodesOf _ _).mpr ⟨(estar, evstar), hevs, h1⟩
          have hm2 : oid2 ∈ nodesOf log.events :=
            (mem_nodesOf _ _).mpr ⟨(estar, evstar), hevs, h2⟩
          have hA : (phase1Graph log).node_attributes oid1 =
              some ⟨typeOfD log oid1, oeOf log.events oid1⟩ := by
            rw [phase1Graph_attrs]
            unfold attrsOf
            rw [if_pos hm1]
          have hB : (phase1Graph log).node_attributes oid2 =
              some ⟨typeOfD log oid2, oeOf log.events oid2⟩ := by
            rw [phase1Graph_attrs]
            unfold attrsOf
            rw [if_pos hm2]
          have hea : estar ∈ oeOf log.events oid1 :=
            (mem_oeOf _ _ _).mpr ⟨evstar, hevs, h1⟩
          have heb : estar ∈ oeOf log.events oid2 :=
            (mem_oeOf _ _ _).mpr ⟨evstar, hevs, h2⟩
          obtain ⟨e, he⟩ := execute_evidence_nonempty r' log (phase1Graph log)
            oid1 oid2 _ _ hA hB estar hea heb p hpx
          refine ⟨e, ?_⟩
          rw [foldl_apply_mem_irels]
          exact Or.inr ⟨p, hp, hkey, he⟩
        · rw [if_neg hgate] at hpo
          cases hpo
  · intro g' p a b r
    unfold Ocdg.apply_new_edges
    dsimp only
    by_cases hc : a = p.src ∧ b = p.tgt ∧ r = p.rel.relation_index
    · rw [if_pos hc]
      exact Finset.subset_union_left
    · rw [if_neg hc]

/-- Witness for C8: the INTERACTS evidence of the example log's edge
(10, 20) is non-empty. -/
theorem evidence_nonempty_monotone_witness :
    (((generate_ocdg exLog allRelations).toOption.getD Ocdg.empty).irels 10 20
      Relations.INTERACTS.relation_index).Nonempty :=
  (evidence_nonempty_monotone exLog allRelations (by decide) _ (by rfl)).1
    10 20 Relations.INTERACTS.relation_index (by decide)

/-! ### C5: canonicalized relation kinds -/

/-- Spec rule for COBIRTH on two final lifelines: equal first events. -/
def cobirthRule (la lb : List EventId) : Bool :=
  la.head?.isSome && la.head? == lb.head?

/-- Spec rule for CODEATH on two final lifelines: equal last events. -/
def codeathRule (la lb : List EventId) : Bool :=
  la.getLast?.isSome && la.getLast? == lb.getLast?

/-- Spec rule for ENGAGES: neither object's first or last event occurs
anywhere in the other's lifeline. -/
def engagesRule (la lb : List EventId) : Bool :=
  match la.head?, la.getLast?, lb.head?, lb.getLast? with
  | some sf, some sl, some tf, some tl =>
    decide (sf ∉ lb) && decide (sl ∉ lb) && decide (tf ∉ la) &&
      decide (tl ∉ la)
  | _, _, _, _ => false

/-- Spec rule for PEELER: no event of the shorter lifeline (ties to the
first) has an object set of more than two members containing both. -/
def peelerRule (log : Ocel) (a b : ObjectId) (la lb : List EventId) : Bool :=
  decide (¬ ∃ e ∈ (if lb.length < la.length then lb else la),
    2 < (omapOf log e).length ∧ a ∈ omapOf log e ∧ b ∈ omapOf log e)

/-- The firing rule of a canonicalized kind, read on two final lifelines. -/
def canonicalRule (log : Ocel) (k : Relations) (a b : ObjectId)
    (la lb : List EventId) : Bool :=
  match k with
  | .COBIRTH => cobirthRule la lb
  | .CODEATH => codeathRule la lb
  | .PEELER => peelerRule log a b la lb
  | .ENGAGES => engagesRule la lb
  | _ => false

theorem cobirth_eq (log : Ocel) (g : Ocdg) (a b : ObjectId)
    (sa sb : NodeInfo) (hA : g.node_attributes a = some sa)
    (hB : g.node_attributes b = some sb) :
    Relations.COBIRTH.execute log g a b =
      (if a < b then
        match sa.object_events.head?, sb.object_events.head? with
        | some se, some te =>
          if se = te then
            [⟨a, b, .SINGLE se, .COBIRTH⟩, ⟨b, a, .SINGLE se, .COBIRTH⟩]
          else []
        | _, _ => []
      else []) := by
  unfold Relations.execute
  simp only [hA, hB]

theorem codeath_eq (log : Ocel) (g : Ocdg) (a b : ObjectId)
    (sa sb : NodeInfo) (hA : g.node_attributes a = some sa)
    (hB : g.node_attributes b = some sb) :
    Relations.CODEATH.execute log g a b =
      (if a < b then
        match sa.object_events.getLast?, sb.object_events.getLast? with
        | some se, some te =>
          if se = te then
            [⟨a, b, .SINGLE se, .CODEATH⟩, ⟨b, a, .SINGLE se, .CODEATH⟩]
          else []
        | _, _ => []
      else []) := by
  unfold Relations.execute
  simp only [hA, hB]

theorem engages_eq (log : Ocel) (g : Ocdg) (a b : ObjectId)
    (sa sb : NodeInfo) (hA : g.node_attributes a = some sa)
    (hB : g.node_attributes b = some sb) :
    Relations.ENGAGES.execute log g a b =
      (if a < b then
        match sa.object_events.head?, sa.object_events.getLast?,
            sb.object_events.head?, sb.object_events.getLast? with
        | some sf, some sl, some tf, some tl =>
          if sf ∉ sb.object_events.toFinset ∧ sl ∉ sb.object_events.toFinset ∧
             tf ∉ sa.object_events.toFinset ∧ tl ∉ sa.object_events.toFinset then
            [⟨a, b, .MULTI (sa.object_events.toFinset ∩ sb.object_events.toFinset), .ENGAGES⟩,
             ⟨b, a, .MULTI (sa.object_events.toFinset ∩ sb.object_events.toFinset), .ENGAGES⟩]
          else []
        | _, _, _, _ => []
      else []) := by
  unfold Relations.execute
  simp only [hA, hB]

theorem canonical_execute_mirror (k : Relations)
    (hk : k = .COBIRTH ∨ k = .CODEATH ∨ k = .PEELER ∨ k = .ENGAGES)
    (log : Ocel) (g : Ocdg) (oid1 oid2 x y : ObjectId) (E : EventAdd)
    (hp : (⟨x, y, E, k⟩ : Proposal) ∈ k.execute log g oid1 oid2) :
    (⟨y, x, E, k⟩ : Proposal) ∈ k.execute log g oid1 oid2 := by
  rcases hA : g.node_attributes oid1 with _ | sa
  · rcases hk with rfl | rfl | rfl | rfl <;>
      (unfold Relations.execute at hp; simp only [hA] at hp; cases hp)
  rcases hB : g.node_attributes oid2 with _ | sb
  · rcases hk with rfl | rfl | rfl | rfl <;>
      (unfold Relations.execute at hp; simp only [hA, hB] at hp; cases hp)
  by_cases hab : oid1 < oid2
  case neg =>
    rcases hk with rfl | rfl | rfl | rfl <;>
      (unfold Relations.execute at hp; simp only [hA, hB, if_neg hab] at hp;
       cases hp)
  case pos =>
    rcases hk with rfl | rfl | rfl | rfl
    · rw [cobirth_eq log g oid1 oid2 sa sb hA hB, if_pos hab] at hp ⊢
      rcases h1 : sa.object_events.head? with _ | se <;>
        rcases h2 : sb.object_events.head? with _ | te <;>
        simp only [h1, h2] at hp ⊢
      · cases hp
      · cases hp
      · cases hp
      · by_cases hse : se = te
        · rw [if_pos hse] at hp ⊢
          simp only [List.mem_cons, List.mem_singleton, List.not_mem_nil,
            or_false, Proposal.mk.injEq, and_true] at hp
          rcases hp with ⟨rfl, rfl, rfl⟩ | ⟨rfl, rfl, rfl⟩ <;> simp
        · rw [if_neg hse] at hp
          cases hp
    · rw [codeath_eq log g oid1 oid2 sa sb hA hB, if_pos hab] at hp ⊢
      rcases h1 : sa.object_events.getLast? with _ | se <;>
        rcases h2 : sb.object_events.getLast? with _ | te <;>
        simp only [h1, h2] at hp ⊢
      · cases hp
      · cases hp
      · cases hp
      · by_cases hse : se = te
        · rw [if_pos hse] at hp ⊢
          simp only [List.mem_cons, List.mem_singleton, List.not_mem_nil,
            or_false, Proposal.mk.injEq, and_true] at hp
          rcases hp with ⟨rfl, rfl, rfl⟩ | ⟨rfl, rfl, rfl⟩ <;> simp
        · rw [if_neg hse] at hp
          cases hp
    · rw [peeler_eq log g oid1 oid2 sa sb hA hB hab] at hp ⊢
      by_cases hlen : sb.object_events.length < sa.object_events.length <;>
        [rw [if_pos hlen] at hp ⊢; rw [if_neg hlen] at hp ⊢] <;>
        [skip; skip] <;> split at hp <;>
        first
        | (rename_i hbad
           rw [if_neg hbad]
           simp only [List.mem_cons, List.mem_singleton, List.not_mem_nil,
             or_false, Proposal.mk.injEq, and_true] at hp
           rcases hp with ⟨rfl, rfl, rfl⟩ | ⟨rfl, rfl, rfl⟩ <;> simp)
        | cases hp
    · rw [engages_eq log g oid1 oid2 sa sb hA hB, if_pos hab] at hp ⊢
      rcases h1 : sa.object_events.head? with _ | sf <;>
        rcases h2 : sa.object_events.getLast? with _ | sl <;>
        rcases h3 : sb.object_events.head? with _ | tf <;>
        rcases h4 : sb.object_events.getLast? with _ | tl <;>
        simp only [h1, h2, h3, h4] at hp ⊢ <;>
        first
        | (split at hp <;>
           first
           | (rename_i hcond
              rw [if_pos hcond]
              simp only [List.mem_cons, List.mem_singleton, List.not_mem_nil,
                or_false, Proposal.mk.injEq, and_true] at hp
              rcases hp with ⟨rfl, rfl, rfl⟩ | ⟨rfl, rfl, rfl⟩ <;> simp)
           | cases hp)
        | cases hp

theorem cobirth_fires (log : Ocel) (g : Ocdg) (a b : ObjectId)
    (sa sb : NodeInfo) (hA : g.node_attributes a = some sa)
    (hB : g.node_attributes b = some sb) (hab : a < b)
    (hrule : cobirthRule sa.object_events sb.object_events = true) :
    ∃ E, (⟨a, b, E, .COBIRTH⟩ : Proposal) ∈
        Relations.COBIRTH.execute log g a b ∧
      (⟨b, a, E, .COBIRTH⟩ : Proposal) ∈ Relations.COBIRTH.execute log g a b := by
  unfold cobirthRule at hrule
  rw [Bool.and_eq_true, beq_iff_eq] at hrule
  obtain ⟨hsome, heq⟩ := hrule
  obtain ⟨se, hse⟩ := Option.isSome_iff_exists.mp hsome
  have hte : sb.object_events.head? = some se := by rw [← heq, hse]
  rw [cobirth_eq log g a b sa sb hA hB, if_pos hab]
  simp only [hse, hte, if_pos rfl]
  exact ⟨.SINGLE se, by simp, by simp⟩

theorem codeath_fires (log : Ocel) (g : Ocdg) (a b : ObjectId)
    (sa sb : NodeInfo) (hA : g.node_attributes a = some sa)
    (hB : g.node_attributes b = some sb) (hab : a < b)
    (hrule : codeathRule sa.object_events sb.object_events = true) :
    ∃ E, (⟨a, b, E, .CODEATH⟩ : Proposal) ∈
        Relations.CODEATH.execute log g a b ∧
      (⟨b, a, E, .CODEATH⟩ : Proposal) ∈ Relations.CODEATH.execute log g a b := by
  unfold codeathRule at hrule
  rw [Bool.and_eq_true, beq_iff_eq] at hrule
  obtain ⟨hsome, heq⟩ := hrule
  obtain ⟨se, hse⟩ := Option.isSome_iff_exists.mp hsome
  have hte : sb.object_events.getLast? = some se := by rw [← heq, hse]
  rw [codeath_eq log g a b sa sb hA hB, if_pos hab]
  simp only [hse, hte, if_pos rfl]
  exact ⟨.SINGLE se, by simp, by simp⟩

theorem peeler_fires (log : Ocel) (g : Ocdg) (a b : ObjectId)
    (sa sb : NodeInfo) (hA : g.node_attributes a = some sa)
    (hB : g.node_attributes b = some sb) (hab : a < b)
    (hrule : peelerRule log a b sa.object_events sb.object_events = true) :
    ∃ E, (⟨a, b, E, .PEELER⟩ : Proposal) ∈
        Relations.PEELER.execute log g a b ∧
      (⟨b, a, E, .PEELER⟩ : Proposal) ∈ Relations.PEELER.execute log g a b := by
  unfold peelerRule at hrule
  rw [decide_eq_true_iff] at hrule
  rw [peeler_eq log g a b sa sb hA hB hab]
  by_cases hlen : sb.object_events.length < sa.object_events.length
  · rw [if_pos hlen] at hrule
    rw [if_pos hlen, if_neg hrule]
    exact ⟨.MULTI sb.object_events.toFinset, by simp, by simp⟩
  · rw [if_neg hlen] at hrule
    rw [if_neg hlen, if_neg hrule]
    exact ⟨.MULTI sa.object_events.toFinset, by simp, by simp⟩

theorem engages_fires (log : Ocel) (g : Ocdg) (a b : ObjectId)
    (sa sb : NodeInfo) (hA : g.node_attributes a = some sa)
    (hB : g.node_attributes b = some sb) (hab : a < b)
    (hrule : engagesRule sa.object_events sb.object_events = true) :
    ∃ E, (⟨a, b, E, .ENGAGES⟩ : Proposal) ∈
        Relations.ENGAGES.execute log g a b ∧
      (⟨b, a, E, .ENGAGES⟩ : Proposal) ∈ Relations.ENGAGES.execute log g a b := by
  unfold engagesRule at hrule
  rcases h1 : sa.object_events.head? with _ | sf <;>
    rcases h2 : sa.object_events.getLast? with _ | sl <;>
    rcases h3 : sb.object_events.head? with _ | tf <;>
    rcases h4 : sb.object_events.getLast? with _ | tl <;>
    simp only [h1, h2, h3, h4] at hrule
  all_goals try cases hrule
  rw [Bool.and_eq_true, Bool.and_eq_true, Bool.and_eq_true,
    decide_eq_true_iff, decide_eq_true_iff, decide_eq_true_iff,
    decide_eq_true_iff] at hrule
  obtain ⟨⟨⟨c1, c2⟩, c3⟩, c4⟩ := hrule
  rw [engages_eq log g a b sa sb hA hB, if_pos hab]
  simp only [h1, h2, h3, h4]
  rw [if_pos ⟨by simpa [List.mem_toFinset] using c1,
    by simpa [List.mem_toFinset] using c2,
    by simpa [List.mem_toFinset] using c3,
    by simpa [List.mem_toFinset] using c4⟩]
  exact ⟨.MULTI (sa.object_events.toFinset ∩ sb.object_events.toFinset),
    by simp, by simp⟩

/-- The firing rule on the final lifelines makes the canonical evaluator
emit both directed proposals with a shared evidence value. -/
theorem canonical_fires (k : Relations)
    (hk : k = .COBIRTH ∨ k = .CODEATH ∨ k = .PEELER ∨ k = .ENGAGES)
    (log : Ocel) (g : Ocdg) (a b : ObjectId) (sa sb : NodeInfo)
    (hA : g.node_attributes a = some sa) (hB : g.node_attributes b = some sb)
    (hab : a < b)
    (hrule : canonicalRule log k a b sa.object_events sb.object_events = true) :
    ∃ E, (⟨a, b, E, k⟩ : Proposal) ∈ k.execute log g a b ∧
      (⟨b, a, E, k⟩ : Proposal) ∈ k.execute log g a b := by
  rcases hk with rfl | rfl | rfl | rfl
  · exact cobirth_fires log g a b sa sb hA hB hab hrule
  · exact codeath_fires log g a b sa sb hA hB hab hrule
  · exact peeler_fires log g a b sa sb hA hB hab hrule
  · exact engages_fires log g a b sa sb hA hB hab hrule

theorem canonical_task_source (log : Ocel) (g : Ocdg) (rels : List Relations)
    (oid1 : ObjectId) (p : Proposal) (k : Relations)
    (hk : k = .COBIRTH ∨ k = .CODEATH ∨ k = .PEELER ∨ k = .ENGAGES)
    (hrel : p.rel = k)
    (hp : p ∈ whole_instance_edges log g (relSelWhole rels)
      (relSelInst rels) oid1) :
    ∃ oid2, oid2 ∈ outNeighbors g oid1 ∧ 0 < relCount g oid1 oid2 ∧
      k ∈ relSelInst rels ∧ p ∈ k.execute log g oid1 oid2 := by
  unfold whole_instance_edges at hp
  rcases List.mem_append.mp hp with hL | hR
  · exfalso
    obtain ⟨r, hr, hpw⟩ := List.mem_flatMap.mp hL
    have h1 : p.rel = r := execute_whole_faithful r log g oid1 _ p hpw
    have hkr : r = k := by rw [← hrel, h1]
    subst hkr
    have h3 := (List.mem_filter.mp hr).2
    rw [beq_iff_eq] at h3
    rcases hk with rfl | rfl | rfl | rfl <;> cases h3
  · obtain ⟨oid2, hneigh, hpo⟩ := List.mem_flatMap.mp hR
    by_cases hgate : 0 < relCount g oid1 oid2
    · rw [if_pos hgate] at hpo
      obtain ⟨r, hr, hpx⟩ := List.mem_flatMap.mp hpo
      have h1 : p.rel = r := execute_faithful r log g oid1 oid2 p hpx
      have hkr : r = k := by rw [← hrel, h1]
      subst hkr
      exact ⟨oid2, hneigh, hgate, hr, hpx⟩
    · rw [if_neg hgate] at hpo
      cases hpo

theorem canonical_final_mem_subset (log : Ocel) (rels : List Relations)
    (order : List ObjectId) (k : Relations)
    (hk : k = .COBIRTH ∨ k = .CODEATH ∨ k = .PEELER ∨ k = .ENGAGES)
    (a b : ObjectId) (e : EventId)
    (hmem : e ∈ (phase23 log rels order (phase1Graph log)).irels a b
      k.relation_index) :
    e ∈ (phase23 log rels order (phase1Graph log)).irels b a
      k.relation_index := by
  unfold phase23 at hmem ⊢
  rw [foldl_apply_mem_irels] at hmem ⊢
  rcases hmem with h1 | ⟨p, hp, hkey, he⟩
  · exfalso
    rcases (phase1Graph_mem_irels _ _ _ _ _).mp h1 with ⟨p, hp, hkey, -⟩
    obtain ⟨eid, ev, -, -, -, -, -, hrel⟩ := propsAux_shape log p hp
    have hidx : k.relation_index = p.rel.relation_index := by
      have := congrArg (fun t => t.2.2) hkey
      simpa using this
    have hkp := relation_index_injective _ _ hidx
    rcases hrel with hI | hI <;> rw [hI] at hkp <;>
      rcases hk with rfl | rfl | rfl | rfl <;> cases hkp
  · obtain ⟨oid1, ho1, hpt⟩ := List.mem_flatMap.mp hp
    have hidx : k.relation_index = p.rel.relation_index := by
      have := congrArg (fun t => t.2.2) hkey
      simpa using this
    have hrel : p.rel = k := (relation_index_injective _ _ hidx).symm
    obtain ⟨oid2, hneigh, hgate, hki, hpx⟩ :=
      canonical_task_source log (phase1Graph log) rels oid1 p k hk hrel hpt
    have hsa : a = p.src := by
      have := congrArg (fun t => t.1) hkey
      simpa using this
    have hsb : b = p.tgt := by
      have := congrArg (fun t => t.2.1) hkey
      simpa using this
    obtain ⟨ps, pt, pe, pr⟩ := p
    simp only at hrel hsa hsb he hpx
    subst hrel; subst hsa; subst hsb
    have hmirror : (⟨b, a, pe, pr⟩ : Proposal) ∈
        pr.execute log (phase1Graph log) oid1 oid2 :=
      canonical_execute_mirror pr hk log (phase1Graph log) oid1 oid2 a b pe hpx
    refine Or.inr ⟨⟨b, a, pe, pr⟩, ?_, rfl, he⟩
    refine List.mem_flatMap.mpr ⟨oid1, ho1, ?_⟩
    unfold whole_instance_edges
    refine List.mem_append.mpr (Or.inr (List.mem_flatMap.mpr
      ⟨oid2, hneigh, ?_⟩))
    rw [if_pos hgate]
    exact List.mem_flatMap.mpr ⟨pr, hki, hmirror⟩

theorem relCount_pos (g : Ocdg) (a b : ObjectId) (r : Nat)
    (hkey : (a, b, r) ∈ g.irelsKeys) : 0 < relCount g a b := by
  unfold relCount
  rw [Finset.card_pos]
  exact ⟨(a, b, r), Finset.mem_filter.mpr ⟨hkey, rfl, rfl⟩⟩

/-- A log with two objects that never share an event: their lifelines are
disjoint singletons. -/
def cxLog : Ocel :=
  ⟨[(1, ⟨[10]⟩), (2, ⟨[20]⟩)], [(10, ⟨"A"⟩), (20, ⟨"A"⟩)]⟩

/-- C5 as stated is false: the PEELER firing rule holds on the final
lifelines of the never-co-occurring pair (10, 20) of `cxLog`, and PEELER
is selected, yet the final graph has no edge and no PEELER evidence for
the pair — canonical kinds are only evaluated for pairs already adjacent
in the phase-1 graph. -/
theorem canonical_kinds_counterexample :
    Relations.PEELER ∈ allRelations ∧
    canonicalRule cxLog .PEELER 10 20 (oeOf cxLog.events 10)
      (oeOf cxLog.events 20) = true ∧
    generate_ocdg cxLog allRelations =
      .ok ((generate_ocdg cxLog allRelations).toOption.getD Ocdg.empty) ∧
    (10, 20) ∉ ((generate_ocdg cxLog allRelations).toOption.getD
      Ocdg.empty).edges ∧
    ((generate_ocdg cxLog allRelations).toOption.getD Ocdg.empty).irels 10 20
      Relations.PEELER.relation_index = ∅ :=
  ⟨by decide, by decide, by rfl, by decide, by decide⟩

/-- C5 amended: for each canonicalized kind (COBIRTH, CODEATH, PEELER,
ENGAGES), the stored evidence is symmetric in the ordered pair for every
pair of objects, and for every selected kind and pair `a < b` that
co-occur in at least one event (so that the pair is adjacent after
phase 1 and gets evaluated), the firing rule on the final lifelines makes
both directed edges appear carrying that kind. -/
theorem canonical_kinds_both_edges (log : Ocel) (rels : List Relations)
    (hwf : WellFormedLog log) (g : Ocdg)
    (hg : generate_ocdg log rels = .ok g) (k : Relations)
    (hk : k = .COBIRTH ∨ k = .CODEATH ∨ k = .PEELER ∨ k = .ENGAGES) :
    (∀ a b, g.irels a b k.relation_index = g.irels b a k.relation_index) ∧
    (∀ a b, a < b → k ∈ rels →
      (∃ e ev, (e, ev) ∈ log.events ∧ a ∈ ev.omap ∧ b ∈ ev.omap) →
      canonicalRule log k a b (oeOf log.events a) (oeOf log.events b) = true →
      (a, b) ∈ g.edges ∧ (b, a) ∈ g.edges ∧
      (a, b, k.relation_index) ∈ g.irelsKeys ∧
      (b, a, k.relation_index) ∈ g.irelsKeys) := by
  have hgg : phase23 log rels (nodesOf log.events) (phase1Graph log) = g := by
    have hh := hg
    rwa [generate_run_wf log rels hwf, Except.ok.injEq] at hh
  subst hgg
  constructor
  · intro a b
    apply Finset.Subset.antisymm
    · intro e he
      exact canonical_final_mem_subset log rels _ k hk a b e he
    · intro e he
      exact canonical_final_mem_subset log rels _ k hk b a e he
  · rintro a b hab hsel ⟨estar, evstar, hev, h1, h2⟩ hrule
    have hne : a ≠ b := Nat.ne_of_lt hab
    have hm1 : a ∈ nodesOf log.events :=
      (mem_nodesOf _ _).mpr ⟨(estar, evstar), hev, h1⟩
    have hm2 : b ∈ nodesOf log.events :=
      (mem_nodesOf _ _).mpr ⟨(estar, evstar), hev, h2⟩
    have hA : (phase1Graph log).node_attributes a =
        some ⟨typeOfD log a, oeOf log.events a⟩ := by
      rw [phase1Graph_attrs]
      unfold attrsOf
      rw [if_pos hm1]
    have hB : (phase1Graph log).node_attributes b =
        some ⟨typeOfD log b, oeOf log.events b⟩ := by
      rw [phase1Graph_attrs]
      unfold attrsOf
      rw [if_pos hm2]
    have hPab : (⟨a, b, .SINGLE estar, .INTERACTS⟩ : Proposal) ∈
        propsAux log [] log.events := by
      obtain ⟨pre, post, hsplit⟩ := List.append_of_mem hev
      rw [mem_propsAux]
      exact ⟨pre, estar, evstar, post, hsplit,
        (mem_eventProps _ _ _ _).mpr ⟨a, h1, b, h2, hne,
          Or.inl ((mem_execute_primitive_INTERACTS _ _ _ _ _).mpr rfl)⟩⟩
    have hedge : (a, b) ∈ (phase1Graph log).edges :=
      (phase1Graph_mem_edges _ _).mpr ⟨_, hPab, rfl⟩
    have hkey0 : (a, b, Relations.INTERACTS.relation_index) ∈
        (phase1Graph log).irelsKeys :=
      (phase1Graph_mem_keys _ _).mpr ⟨_, hPab, rfl⟩
    have hgate : 0 < relCount (phase1Graph log) a b :=
      relCount_pos _ _ _ _ hkey0
    have hneigh : b ∈ outNeighbors (phase1Graph log) a :=
      (mem_outNeighbors _ _ _).mpr hedge
    obtain ⟨E, hpa, hpb⟩ := canonical_fires k hk log (phase1Graph log) a b
      _ _ hA hB hab hrule
    have hki : k ∈ relSelInst rels := List.mem_filter.mpr
      ⟨hsel, by rcases hk with rfl | rfl | rfl | rfl <;> rfl⟩
    have hta : (⟨a, b, E, k⟩ : Proposal) ∈ whole_instance_edges log
        (phase1Graph log) (relSelWhole rels) (relSelInst rels) a := by
      unfold whole_instance_edges
      refine List.mem_append.mpr (Or.inr (List.mem_flatMap.mpr
        ⟨b, hneigh, ?_⟩))
      rw [if_pos hgate]
      exact List.mem_flatMap.mpr ⟨k, hki, hpa⟩
    have htb : (⟨b, a, E, k⟩ : Proposal) ∈ whole_instance_edges log
        (phase1Graph log) (relSelWhole rels) (relSelInst rels) a := by
      unfold whole_instance_edges
      refine List.mem_append.mpr (Or.inr (List.mem_flatMap.mpr
        ⟨b, hneigh, ?_⟩))
      rw [if_pos hgate]
      exact List.mem_flatMap.mpr ⟨k, hki, hpb⟩
    have hfa : (⟨a, b, E, k⟩ : Proposal) ∈ (nodesOf log.events).flatMap
        (whole_instance_edges log (phase1Graph log) (relSelWhole rels)
          (relSelInst rels)) := List.mem_flatMap.mpr ⟨a, hm1, hta⟩
    have hfb : (⟨b, a, E, k⟩ : Proposal) ∈ (nodesOf log.events).flatMap
        (whole_instance_edges log (phase1Graph log) (relSelWhole rels)
          (relSelInst rels)) := List.mem_flatMap.mpr ⟨a, hm1, htb⟩
    refine ⟨?_, ?_, ?_, ?_⟩
    · unfold phase23
      exact (foldl_apply_mem_edges _ _ _).mpr (Or.inr ⟨_, hfa, rfl⟩)
    · unfold phase23
      exact (foldl_apply_mem_edges _ _ _).mpr (Or.inr ⟨_, hfb, rfl⟩)
    · unfold phase23
      exact (foldl_apply_mem_keys _ _ _).mpr (Or.inr ⟨_, hfa, rfl⟩)
    · unfold phase23
      exact (foldl_apply_mem_keys _ _ _).mpr (Or.inr ⟨_, hfb, rfl⟩)

/-- Witness for the amended C5: COBIRTH on the co-occurring pair (10, 20)
of the example log. -/
theorem canonical_kinds_both_edges_witness :
    (10, 20) ∈ ((generate_ocdg exLog allRelations).toOption.getD
      Ocdg.empty).edges ∧
    (20, 10) ∈ ((generate_ocdg exLog allRelations).toOption.getD
      Ocdg.empty).edges ∧
    (10, 20, Relations.COBIRTH.relation_index) ∈
      ((generate_ocdg exLog allRelations).toOption.getD Ocdg.empty).irelsKeys ∧
    (20, 10, Relations.COBIRTH.relation_index) ∈
      ((generate_ocdg exLog allRelations).toOption.getD Ocdg.empty).irelsKeys :=
  (canonical_kinds_both_edges exLog allRelations (by decide) _ (by rfl)
    .COBIRTH (Or.inl rfl)).2 10 20 (by decide) (by decide)
    ⟨1, ⟨[10, 20]⟩, by decide, by decide, by decide⟩ (by decide)
